import Mathlib

/-!
midka.dev-backend: the recent-tracks cache and the Last.fm normalisation.

A shallow embedding of `internal/lastfm.go` and `main.go`.

* Go strings are Lean strings; the byte loops of `strconv` are run over the
  characters (for base 10 every byte of a non-ASCII character is rejected
  exactly like the character itself).
* Go `int` and `int64` are `Int`, with the 64-bit bounds written out where the
  code depends on them.
* `time.Time` is an instant counted in nanoseconds from Go's zero time,
  `time.Duration` a number of nanoseconds; `Time.Sub` saturates as in Go.
* The network (`http.Get` followed by the XML decoder) is a function given to
  the code; every call of it is logged in the result.
-/

namespace Midka

/-! ## `internal/lastfm.go`: data model -/

/-- The anonymous struct of `LastFMTrack.Artist` and `LastFMTrack.Album`. -/
structure NameMBID where
  Name : String := ""
  MBID : String := ""
deriving DecidableEq, Repr, Inhabited

/-- The anonymous struct of `LastFMTrack.Date`. -/
structure TrackDate where
  Text : String := ""
  UTS : String := ""
deriving DecidableEq, Repr, Inhabited

/-- The anonymous struct of the elements of `LastFMTrack.Images`. -/
structure Image where
  Size : String := ""
  URL : String := ""
deriving DecidableEq, Repr, Inhabited

/-- The struct `LastFMTrack` (the `XMLName` tag field carries no data used by the code). -/
structure LastFMTrack where
  NowPlaying : String := ""
  Artist : NameMBID := {}
  Name : String := ""
  Album : NameMBID := {}
  URL : String := ""
  Date : TrackDate := {}
  Images : List Image := []
  Streamable : String := ""
  MBID : String := ""
deriving DecidableEq, Repr, Inhabited

/-- The struct `LastFMRecentTracks`. -/
structure LastFMRecentTracks where
  User : String := ""
  Page : String := ""
  PerPage : String := ""
  TotalPages : String := ""
  Total : String := ""
  Tracks : List LastFMTrack := []
deriving DecidableEq, Repr, Inhabited

/-- The struct `LastFMResponse`. -/
structure LastFMResponse where
  Status : String := ""
  RecentTracks : LastFMRecentTracks := {}
deriving DecidableEq, Repr, Inhabited

/-- The struct `FriendlyTrack`. -/
structure FriendlyTrack where
  Title : String := ""
  Artist : String := ""
  Album : String := ""
  EpochTimePlayed : Int := 0
  ArtworkURL : String := ""
  IsCurrentlyPlaying : Bool := false
deriving DecidableEq, Repr, Inhabited

/-- The struct `FriendlyRecentTracks`; the defaults are Go's zero value. -/
structure FriendlyRecentTracks where
  Tracks : List FriendlyTrack := []
  TotalTracks : Int := 0
  Cached : Bool := false
deriving DecidableEq, Repr, Inhabited

/-! ## `strconv.ParseInt(s, 10, 64)` and `strconv.Atoi` (Go standard library) -/

/-- The two errors of `strconv`: `ErrSyntax` and `ErrRange`. -/
inductive NumError where
  | ErrSyntax
  | ErrRange
deriving DecidableEq, Repr

/-- The constant `maxUint64 = 1<<64 - 1`. -/
def maxUint64 : Nat := 18446744073709551615

/-- The cutoff `1 << 63` of `ParseInt` for `bitSize = 64`. -/
def int64Cutoff : Nat := 9223372036854775808

/-- The digit loop of `strconv.ParseUint` for `base = 10`, `bitSize = 64`, with
accumulator `n`.  A byte that is not a decimal digit is a syntax error (a letter
decodes to a digit value of at least 10, which is rejected for base 10).
`n >= cutoff` with `cutoff = maxUint64/10 + 1` and the wrapped sum are the two
overflow tests of the source; both return `maxVal` at once, without looking at
the rest of the string. -/
def parseUintLoop : List Char → Nat → Nat × Option NumError
  | [], n => (n, none)
  | c :: cs, n =>
    if c.isDigit then
      let d := c.toNat - 48
      if n ≥ maxUint64 / 10 + 1 then (maxUint64, some .ErrRange)
      else
        let m := (n * 10) % 2 ^ 64
        let n1 := (m + d) % 2 ^ 64
        if n1 < m ∨ n1 > maxUint64 then (maxUint64, some .ErrRange)
        else parseUintLoop cs n1
    else (0, some .ErrSyntax)

/-- The function `strconv.ParseUint(s, 10, 64)` on the characters of `s`. -/
def ParseUint (s : List Char) : Nat × Option NumError :=
  match s with
  | [] => (0, some .ErrSyntax)
  | _ => parseUintLoop s 0

/-- The function `strconv.ParseInt(s, 10, 64)`: the value and the error. On a range
error the value is the nearest bound, on a syntax error it is 0. -/
def ParseInt (s : String) : Int × Option NumError :=
  match s.toList with
  | [] => (0, some .ErrSyntax)
  | c :: cs =>
    let neg := decide (c = '-')
    let body := if c = '+' ∨ c = '-' then cs else c :: cs
    let r := ParseUint body
    if r.2 = some .ErrSyntax then (0, some .ErrSyntax)
    else if !neg ∧ r.1 ≥ int64Cutoff then (Int.ofNat (int64Cutoff - 1), some .ErrRange)
    else if neg ∧ r.1 > int64Cutoff then (-(Int.ofNat int64Cutoff), some .ErrRange)
    else (if neg then -(Int.ofNat r.1) else Int.ofNat r.1, none)

/-- The function `strconv.Atoi` on a 64-bit platform: `ParseInt(s, 10, 0)` converted
to `int` (its fast path for short strings computes the same result). -/
def Atoi (s : String) : Int × Option NumError := ParseInt s

/-! ## `ConvertToFriendlyTrack` -/

/-- The slice `sizes` of `ConvertToFriendlyTrack`. -/
def sizes : List String := ["extralarge", "large", "medium", "small"]

/-- The inner loop `for _, img := range track.Images`: the first image whose `Size`
is `size` overwrites `artworkURL` and ends the loop. -/
def imageLoop (size : String) : List Image → String → String
  | [], artworkURL => artworkURL
  | img :: rest, artworkURL =>
    if img.Size = size then img.URL else imageLoop size rest artworkURL

/-- The outer loop `for _, size := range sizes`, left as soon as `artworkURL` is
not empty after the inner loop. -/
def sizeLoop (images : List Image) : List String → String → String
  | [], artworkURL => artworkURL
  | size :: rest, artworkURL =>
    let artworkURL1 := imageLoop size images artworkURL
    if artworkURL1 ≠ "" then artworkURL1 else sizeLoop images rest artworkURL1

/-- The function `ConvertToFriendlyTrack`. -/
def ConvertToFriendlyTrack (track : LastFMTrack) : FriendlyTrack :=
  let utsTime := (ParseInt track.Date.UTS).1
  let artworkURL := sizeLoop track.Images sizes ""
  { Title := track.Name
    Artist := track.Artist.Name
    Album := track.Album.Name
    EpochTimePlayed := utsTime
    ArtworkURL := artworkURL
    IsCurrentlyPlaying := decide (track.NowPlaying = "true") }

/-! ## `fetchLastFMRecentTracksXML` and `GetRecentTracksWithFriendlyFormat` -/

/-- A Go `error`, by its message. -/
abbrev Error := String

/-- The query that `fetchLastFMRecentTracksXML` sends to the fixed base URL: the four
values added to `params`, `limit` being the integer that `strconv.Itoa` renders. -/
structure Request where
  method : String
  user : String
  api_key : String
  limit : Int
deriving DecidableEq, Repr

/-- What came back from `http.Get` when it returned no error: the status code, and
what `xml.NewDecoder(resp.Body).Decode` makes of the body. -/
structure HTTPResponse where
  StatusCode : Int
  Body : Except Error LastFMResponse

/-- The network: the outcome of `http.Get` for a request. -/
abbrev Transport := Request → Except Error HTTPResponse

/-- The results `(*LastFMResponse, error)` of `fetchLastFMRecentTracksXML` (a response
with a nil error, or an error with a nil response), with the requests it sent. -/
structure XMLResult where
  result : Except Error LastFMResponse
  requests : List Request

/-- The results `(FriendlyRecentTracks, error)` of `GetRecentTracksWithFriendlyFormat`,
with the requests sent on its behalf. -/
structure TracksResult where
  tracks : FriendlyRecentTracks
  err : Option Error
  requests : List Request
deriving DecidableEq, Repr

/-- The function `fetchLastFMRecentTracksXML`. -/
def fetchLastFMRecentTracksXML (net : Transport) (apiKey username : String) (limit : Int) :
    XMLResult :=
  let req : Request :=
    { method := "user.getrecenttracks", user := username, api_key := apiKey, limit := limit }
  match net req with
  | .error err => { result := .error ("error making request: " ++ err), requests := [req] }
  | .ok resp =>
    if resp.StatusCode ≠ 200 then
      { result := .error ("API returned status code " ++ toString resp.StatusCode)
        requests := [req] }
    else
      match resp.Body with
      | .error err => { result := .error ("error parsing XML: " ++ err), requests := [req] }
      | .ok lastfmResponse => { result := .ok lastfmResponse, requests := [req] }

/-- The loop of `GetRecentTracksWithFriendlyFormat`: each track is converted and
appended to `friendlyTracks`. -/
def appendLoop : List LastFMTrack → List FriendlyTrack → List FriendlyTrack
  | [], friendlyTracks => friendlyTracks
  | track :: rest, friendlyTracks =>
    appendLoop rest (friendlyTracks ++ [ConvertToFriendlyTrack track])

/-- The function `GetRecentTracksWithFriendlyFormat`. -/
def GetRecentTracksWithFriendlyFormat (net : Transport) (apiKey username : String)
    (limit : Int) : TracksResult :=
  let x := fetchLastFMRecentTracksXML net apiKey username limit
  match x.result with
  | .error err => { tracks := {}, err := some err, requests := x.requests }
  | .ok xmlResponse =>
    let friendlyTracks := appendLoop xmlResponse.RecentTracks.Tracks []
    { tracks := { Tracks := friendlyTracks, TotalTracks := Int.ofNat friendlyTracks.length }
      err := none
      requests := x.requests }

/-! ## `main.go`: the cache -/

/-- A `time.Time`: nanoseconds from Go's zero time (year 1) on the clock that
`Sub` compares. -/
structure Time where
  ns : Int
deriving DecidableEq, Repr

/-- The constant `minDuration`; a `time.Duration` is a signed 64-bit count of
nanoseconds. -/
def minDuration : Int := -9223372036854775808

/-- The constant `maxDuration`. -/
def maxDuration : Int := 9223372036854775807

/-- The method `Time.Sub`: the difference `t - u`, or the nearest of `minDuration`
and `maxDuration` when the difference does not fit a `Duration`. -/
def Time.Sub (t u : Time) : Int :=
  let d := t.ns - u.ns
  if d < minDuration then minDuration
  else if d > maxDuration then maxDuration
  else d

/-- The constant `time.Second`. -/
def Second : Int := 1000000000

/-- The variable `cacheDuration = 5 * time.Second`; it is never assigned. -/
def cacheDuration : Int := 5 * Second

/-- The zero `time.Time`, the initial value of `lastCacheTime`. -/
def zeroTime : Time := ⟨0⟩

/-- The first instant of 1970, which is 62135596800 seconds after the zero time. What
`time.Now()` returns is a reading of the operating system's clock, which counts
from this instant on: the readings of `time.Now()` are the instants `now` with
`unixEpoch.ns ≤ now.ns`. -/
def unixEpoch : Time := ⟨62135596800 * Second⟩

/-- The package variables `cachedTracks` and `lastCacheTime`; the defaults are the
values they have when the program starts. -/
structure Cache where
  cachedTracks : FriendlyRecentTracks := {}
  lastCacheTime : Time := zeroTime
deriving DecidableEq, Repr

/-- The state of the package variables at program start. -/
def Cache.initial : Cache := {}

/-- The results `(lib.FriendlyRecentTracks, error)` of one call of
`getCachedRecentTracks`, the package variables after it, and the requests it sent. -/
structure CachedCall where
  tracks : FriendlyRecentTracks
  err : Option Error
  cache : Cache
  requests : List Request
deriving DecidableEq, Repr

/-- The function `getCachedRecentTracks`, run on its own (no other call in between);
`now` is what `time.Now()` returns. -/
def getCachedRecentTracks (net : Transport) (now : Time) (apiKey user : String) (limit : Int)
    (c : Cache) : CachedCall :=
  if now.Sub c.lastCacheTime < cacheDuration then
    let tracks := { c.cachedTracks with Cached := true }
    { tracks := tracks, err := none, cache := c, requests := [] }
  else
    let r := GetRecentTracksWithFriendlyFormat net apiKey user limit
    match r.err with
    | some err => { tracks := {}, err := some err, cache := c, requests := r.requests }
    | none =>
      { tracks := r.tracks
        err := none
        cache := { cachedTracks := r.tracks, lastCacheTime := now }
        requests := r.requests }

/-- One call of `getCachedRecentTracks` in a run of the program: its arguments, the
clock reading it makes and the behaviour of the network during it. -/
structure Call where
  net : Transport
  now : Time
  apiKey : String
  user : String
  limit : Int

/-- The call, executed on the package variables `c`. -/
def Call.run (k : Call) (c : Cache) : CachedCall :=
  getCachedRecentTracks k.net k.now k.apiKey k.user k.limit c

/-- The package variables after a sequence of calls, one after the other. -/
def runCalls : Cache → List Call → Cache
  | c, [] => c
  | c, k :: ks => runCalls (k.run c).cache ks

/-- The most recent successful refresh of a sequence of calls, as the clock reading
and the returned value of the last call that sent a request and returned a nil
error; `acc` is the refresh found so far. -/
def lastRefresh : Cache → List Call → Option (Time × FriendlyRecentTracks) →
    Option (Time × FriendlyRecentTracks)
  | _, [], acc => acc
  | c, k :: ks, acc =>
    let r := k.run c
    lastRefresh r.cache ks
      (if r.requests ≠ [] ∧ r.err = none then some (k.now, r.tracks) else acc)

/-! ## `main.go`: the `/recent-tracks` handler -/

/-- The type `url.Values`: the values of each key, none for an absent key. -/
abbrev Values := String → List String

/-- The method `url.Values.Get`: the first value of the key, or the empty string. -/
def Values.Get (v : Values) (key : String) : String :=
  match v key with
  | [] => ""
  | x :: _ => x

/-- What the handler writes as the response body: the text that `http.Error` sends (the
message followed by a newline), the JSON of an empty list, or the JSON of the
tracks. -/
inductive Body where
  | text (msg : String)
  | emptyList
  | tracks (t : FriendlyRecentTracks)
deriving DecidableEq, Repr

/-- What one request to `/recent-tracks` does: the HTTP status and body written, the
`Cached` and `StatusCode` fields passed to `logRequest`, the limits passed to
`getCachedRecentTracks`, the package variables afterwards and the requests sent. -/
structure Handled where
  status : Int
  body : Body
  loggedCached : Bool
  loggedStatus : Int
  limits : List Int
  cache : Cache
  requests : List Request
deriving DecidableEq, Repr

/-- The first lines of the handler: `limit` is 10, or what `strconv.Atoi` makes of the
query parameter `limit` when that is not the empty string; the second component
is the error of `Atoi`. -/
def parseLimit (query : Values) : Int × Option NumError :=
  let limitParam := Values.Get query "limit"
  if limitParam ≠ "" then Atoi limitParam else (10, none)

/-- The handler registered for `/recent-tracks` in `main`; `apiKey` and `user` are the
environment variables read at start. -/
def recentTracksHandler (net : Transport) (apiKey user : String) (now : Time)
    (query : Values) (c : Cache) : Handled :=
  let parsed := parseLimit query
  match parsed.2 with
  | some _ =>
    { status := 400, body := .text "Invalid limit parameter\n", loggedCached := false
      loggedStatus := 400, limits := [], cache := c, requests := [] }
  | none =>
    let limit := parsed.1
    if limit > 50 then
      { status := 400, body := .text "Limit is too high (>50)\n", loggedCached := false
        loggedStatus := 400, limits := [], cache := c, requests := [] }
    else
      let r := getCachedRecentTracks net now apiKey user limit c
      match r.err with
      | some _ =>
        { status := 200, body := .emptyList, loggedCached := false
          loggedStatus := 500, limits := [limit], cache := r.cache, requests := r.requests }
      | none =>
        { status := 200, body := .tracks r.tracks, loggedCached := r.tracks.Cached
          loggedStatus := 200, limits := [limit], cache := r.cache, requests := r.requests }

/-! ## `getCachedRecentTracks` under concurrency

Every goroutine that runs `getCachedRecentTracks` is a thread with a program
counter; one step of the system is one operation of one thread on the shared
package variables: a lock operation of `cacheMutex`, the read or the write of one
variable (field by field for the struct `cachedTracks`, whose copy is not one
memory operation), or the fetch. `RLock` can be taken when no writer holds the
mutex, `Lock` when nobody holds it (a blocked operation is a step that cannot be
taken; Go in addition keeps new readers out while a writer waits, which only
removes interleavings). All accesses to the variables are made under the mutex,
so each of them sees the latest write. -/

/-- Where a goroutine stands in `getCachedRecentTracks`, with its local variables. -/
inductive PC where
  /-- Before `cacheMutex.RLock()`. -/
  | start
  /-- Holds the read lock; next: `now := time.Now()` and the test on `lastCacheTime`. -/
  | rlocked
  /-- The test succeeded on the value `seen` of `lastCacheTime`; next: copy `cachedTracks.Tracks`. -/
  | hit0 (seen : Time)
  /-- Next: copy `cachedTracks.TotalTracks`. -/
  | hit1 (seen : Time) (tr : List FriendlyTrack)
  /-- Next: copy `cachedTracks.Cached`. -/
  | hit2 (seen : Time) (tr : List FriendlyTrack) (total : Int)
  /-- The copy `tracks := cachedTracks` is complete; next: `tracks.Cached = true`,
  `RUnlock`, `return tracks, nil`. -/
  | hit3 (seen : Time) (copy : FriendlyRecentTracks)
  /-- The test failed; next: `cacheMutex.RUnlock()`. -/
  | miss (now : Time)
  /-- No lock held; next: `lib.GetRecentTracksWithFriendlyFormat`. -/
  | fetching (now : Time)
  /-- The fetch succeeded; next: `cacheMutex.Lock()`. -/
  | fetched (now : Time) (tracks : FriendlyRecentTracks)
  /-- Holds the write lock; next: write `cachedTracks.Tracks`. -/
  | w0 (now : Time) (tracks : FriendlyRecentTracks)
  /-- Next: write `cachedTracks.TotalTracks`. -/
  | w1 (now : Time) (tracks : FriendlyRecentTracks)
  /-- Next: write `cachedTracks.Cached`. -/
  | w2 (now : Time) (tracks : FriendlyRecentTracks)
  /-- Next: `lastCacheTime = now`. -/
  | w3 (now : Time) (tracks : FriendlyRecentTracks)
  /-- Next: `cacheMutex.Unlock()` and `return tracks, nil`. -/
  | w4 (now : Time) (tracks : FriendlyRecentTracks)
  /-- The call has returned `(tracks, err)`; `seen` is, for a return on the cached
  path, the `lastCacheTime` the test used and the `cachedTracks` that was copied. -/
  | returned (tracks : FriendlyRecentTracks) (err : Option Error)
      (seen : Option (FriendlyRecentTracks × Time))
deriving DecidableEq, Repr

/-- Holds the read lock of `cacheMutex`. -/
def PC.readLocked : PC → Bool
  | .rlocked | .hit0 _ | .hit1 _ _ | .hit2 _ _ _ | .hit3 _ _ | .miss _ => true
  | _ => false

/-- Holds the write lock of `cacheMutex`. -/
def PC.writeLocked : PC → Bool
  | .w0 _ _ | .w1 _ _ | .w2 _ _ | .w3 _ _ | .w4 _ _ => true
  | _ => false

/-- A goroutine in `getCachedRecentTracks`: the arguments of the call and where it stands. -/
structure Thread where
  apiKey : String
  user : String
  limit : Int
  pc : PC
deriving DecidableEq, Repr

/-- The shared state: the package variables, the state of `cacheMutex` (number of
read locks held, write lock held), the goroutines, and a record kept for the
proofs only: the pair the program starts with, followed by the pair
`(tracks, now)` of every refresh that has taken the write lock. -/
structure State where
  cachedTracks : FriendlyRecentTracks
  lastCacheTime : Time
  readers : Nat
  writer : Bool
  refreshes : List (FriendlyRecentTracks × Time)
  threads : List Thread
deriving DecidableEq, Repr

/-- The state at program start. -/
def State.initial : State :=
  { cachedTracks := Cache.initial.cachedTracks
    lastCacheTime := Cache.initial.lastCacheTime
    readers := 0
    writer := false
    refreshes := [(Cache.initial.cachedTracks, Cache.initial.lastCacheTime)]
    threads := [] }

/-- The next operation of thread `t` on the state `s`: the new state (its list of
threads untouched) and the new program counter, or `none` when the operation
blocks or the call has returned. `now` is the clock reading and `net` the network,
for the operations that use them. -/
def stepThread (s : State) (t : Thread) (now : Time) (net : Transport) : Option (State × PC) :=
  match t.pc with
  | .start => if s.writer then none else some ({ s with readers := s.readers + 1 }, .rlocked)
  | .rlocked =>
    if now.Sub s.lastCacheTime < cacheDuration then some (s, .hit0 s.lastCacheTime)
    else some (s, .miss now)
  | .hit0 seen => some (s, .hit1 seen s.cachedTracks.Tracks)
  | .hit1 seen tr => some (s, .hit2 seen tr s.cachedTracks.TotalTracks)
  | .hit2 seen tr total =>
    some (s, .hit3 seen { Tracks := tr, TotalTracks := total, Cached := s.cachedTracks.Cached })
  | .hit3 seen copy =>
    some ({ s with readers := s.readers - 1 },
      .returned { copy with Cached := true } none (some (copy, seen)))
  | .miss now0 => some ({ s with readers := s.readers - 1 }, .fetching now0)
  | .fetching now0 =>
    let r := GetRecentTracksWithFriendlyFormat net t.apiKey t.user t.limit
    match r.err with
    | some err => some (s, .returned {} (some err) none)
    | none => some (s, .fetched now0 r.tracks)
  | .fetched now0 tracks =>
    if s.writer ∨ s.readers ≠ 0 then none
    else some ({ s with writer := true, refreshes := s.refreshes ++ [(tracks, now0)] },
      .w0 now0 tracks)
  | .w0 now0 tracks =>
    some ({ s with cachedTracks := { s.cachedTracks with Tracks := tracks.Tracks } },
      .w1 now0 tracks)
  | .w1 now0 tracks =>
    some ({ s with cachedTracks := { s.cachedTracks with TotalTracks := tracks.TotalTracks } },
      .w2 now0 tracks)
  | .w2 now0 tracks =>
    some ({ s with cachedTracks := { s.cachedTracks with Cached := tracks.Cached } },
      .w3 now0 tracks)
  | .w3 now0 tracks => some ({ s with lastCacheTime := now0 }, .w4 now0 tracks)
  | .w4 _ tracks => some ({ s with writer := false }, .returned tracks none none)
  | .returned _ _ _ => none

/-- What happens next in the system: a new call of `getCachedRecentTracks` begins, or
thread `tid` performs its next operation. -/
inductive Action where
  | spawn (apiKey user : String) (limit : Int)
  | run (tid : Nat) (now : Time) (net : Transport)

/-- One step of the system; `none` when the action cannot be taken. -/
def step (s : State) : Action → Option State
  | .spawn apiKey user limit =>
    some { s with threads := s.threads ++ [{ apiKey := apiKey, user := user, limit := limit, pc := .start }] }
  | .run tid now net =>
    match s.threads[tid]? with
    | none => none
    | some t =>
      match stepThread s t now net with
      | none => none
      | some (s1, pc1) => some { s1 with threads := s.threads.set tid { t with pc := pc1 } }

/-- A sequence of steps, that is one interleaving of the operations of the threads. -/
def runActions : State → List Action → Option State
  | s, [] => some s
  | s, a :: as =>
    match step s a with
    | none => none
    | some s1 => runActions s1 as

/-- What the claim of a consistent snapshot says of a thread at program counter `pc`,
given the record of refreshes: the `lastCacheTime` its test used and the
`cachedTracks` it copied are the pair of one refresh (or the initial pair), and
what it returns is that value marked as cached. -/
def PC.consistent (refreshes : List (FriendlyRecentTracks × Time)) : PC → Prop
  | .hit3 seen copy => (copy, seen) ∈ refreshes
  | .returned tracks err (some x) =>
    x ∈ refreshes ∧ tracks = { x.1 with Cached := true } ∧ err = none
  | .returned _ _ none => True
  | .start => True
  | .rlocked => True
  | .hit0 _ => True
  | .hit1 _ _ => True
  | .hit2 _ _ _ => True
  | .miss _ => True
  | .fetching _ => True
  | .fetched _ _ => True
  | .w0 _ _ => True
  | .w1 _ _ => True
  | .w2 _ _ => True
  | .w3 _ _ => True
  | .w4 _ _ => True

/-- What a thread at program counter `pc` has established about the package
variables `ct`, `lt` and the record of refreshes `rs`: a reader has copied the
current values, a writer has written its own values into the fields it is past,
and a returned reader has copied the pair of one refresh. -/
def PC.ok (ct : FriendlyRecentTracks) (lt : Time)
    (rs : List (FriendlyRecentTracks × Time)) : PC → Prop
  | .hit0 seen => seen = lt
  | .hit1 seen tr => seen = lt ∧ tr = ct.Tracks
  | .hit2 seen tr total => seen = lt ∧ tr = ct.Tracks ∧ total = ct.TotalTracks
  | .hit3 seen copy => seen = lt ∧ copy = ct
  | .w0 now tracks => (tracks, now) ∈ rs
  | .w1 now tracks => (tracks, now) ∈ rs ∧ ct.Tracks = tracks.Tracks
  | .w2 now tracks =>
    (tracks, now) ∈ rs ∧ ct.Tracks = tracks.Tracks ∧ ct.TotalTracks = tracks.TotalTracks
  | .w3 now tracks => (tracks, now) ∈ rs ∧ ct = tracks
  | .w4 now tracks => (tracks, now) ∈ rs ∧ ct = tracks ∧ lt = now
  | .returned tracks err (some x) =>
    x ∈ rs ∧ tracks = { x.1 with Cached := true } ∧ err = none
  | .returned _ _ none => True
  | .start => True
  | .rlocked => True
  | .miss _ => True
  | .fetching _ => True
  | .fetched _ _ => True

/-- The invariant of the system: the mutex counts the threads that hold it, a writer
excludes readers, the package variables are the pair of one refresh whenever
no write is under way, and every thread is `ok`. -/
structure Inv (s : State) : Prop where
  readers_eq : s.readers = s.threads.countP (fun t => t.pc.readLocked)
  writer_eq : (if s.writer then 1 else 0) = s.threads.countP (fun t => t.pc.writeLocked)
  excl : s.writer = true → s.readers = 0
  stable : s.writer = false → (s.cachedTracks, s.lastCacheTime) ∈ s.refreshes
  threads_ok : ∀ (i : Nat) (t : Thread), s.threads[i]? = some t →
    t.pc.ok s.cachedTracks s.lastCacheTime s.refreshes

/-! ## The properties as the specification words them -/

/-- The artwork rule as the specification words it: the URL of the first image
carrying the highest-priority label that is present, empty when none is. -/
def artworkByPriority (images : List Image) : List String → String
  | [] => ""
  | size :: rest =>
    match images.find? (fun img => decide (img.Size = size)) with
    | some img => img.URL
    | none => artworkByPriority images rest

/-- The artwork rule with labels whose first image has an empty URL passed over: the
URL of the first image of the highest-priority label whose first image has a
non-empty URL, empty when there is no such label. -/
def artworkNonEmpty (images : List Image) : List String → String
  | [] => ""
  | size :: rest =>
    match images.find? (fun img => decide (img.Size = size)) with
    | some img => if img.URL ≠ "" then img.URL else artworkNonEmpty images rest
    | none => artworkNonEmpty images rest

/-- The natural number that a list of decimal digits denotes. -/
def decimalValue (ds : List Char) : Nat :=
  ds.foldl (fun n c => n * 10 + (c.toNat - 48)) 0

/-- A list of characters all of which are decimal digits. -/
def allDigits (ds : List Char) : Prop := ∀ c ∈ ds, c.isDigit = true

/-! ## Sample inputs -/

/-- The network used in the examples: every request is answered with status 200 and one
track played at 1700000000. -/
def sampleNet : Transport := fun _ =>
  .ok { StatusCode := 200
        Body := .ok { RecentTracks := { Tracks := [{ Name := "song", Date := { UTS := "1700000000" } }] } } }

/-- The value that `GetRecentTracksWithFriendlyFormat` returns on `sampleNet`. -/
def sampleTracks : FriendlyRecentTracks :=
  { Tracks := [{ Title := "song", EpochTimePlayed := 1700000000 }], TotalTracks := 1 }

/-- An instant in the year 2026 (the zero time is the start of the year 1). -/
def sampleNow : Time := ⟨63900000000000000000⟩

/-- A query string with the single parameter `limit=v`. -/
def limitQuery (v : String) : Values := fun key => if key = "limit" then [v] else []

/-- A network that is down: `http.Get` returns an error. -/
def downNet : Transport := fun _ => .error "down"

/-- A network that answers every request with status 200 and no tracks. -/
def emptyNet : Transport := fun _ => .ok { StatusCode := 200, Body := .ok {} }

/-- An interleaving of three calls. Threads 0 and 1 both find the cache stale and
fetch; thread 0 stores its result; thread 2 then takes the cached path while
thread 1 waits for the write lock, and thread 1 stores its result last. -/
def sampleActions : List Action :=
  [ .spawn "key" "user" 10,
    .spawn "key" "user" 20,
    .run 0 sampleNow sampleNet,
    .run 0 sampleNow sampleNet,
    .run 1 ⟨sampleNow.ns + 1 * Second⟩ emptyNet,
    .run 0 sampleNow sampleNet,
    .run 1 ⟨sampleNow.ns + 1 * Second⟩ emptyNet,
    .run 1 ⟨sampleNow.ns + 1 * Second⟩ emptyNet,
    .run 0 sampleNow sampleNet,
    .run 1 ⟨sampleNow.ns + 1 * Second⟩ emptyNet,
    .run 0 sampleNow sampleNet,
    .run 0 sampleNow sampleNet,
    .run 0 sampleNow sampleNet,
    .run 0 sampleNow sampleNet,
    .run 0 sampleNow sampleNet,
    .run 0 sampleNow sampleNet,
    .spawn "key" "user" 50,
    .run 2 ⟨sampleNow.ns + 2 * Second⟩ downNet,
    .run 2 ⟨sampleNow.ns + 2 * Second⟩ downNet,
    .run 2 ⟨sampleNow.ns + 2 * Second⟩ downNet,
    .run 2 ⟨sampleNow.ns + 2 * Second⟩ downNet,
    .run 2 ⟨sampleNow.ns + 2 * Second⟩ downNet,
    .run 2 ⟨sampleNow.ns + 2 * Second⟩ downNet,
    .run 1 ⟨sampleNow.ns + 1 * Second⟩ emptyNet,
    .run 1 ⟨sampleNow.ns + 1 * Second⟩ emptyNet,
    .run 1 ⟨sampleNow.ns + 1 * Second⟩ emptyNet,
    .run 1 ⟨sampleNow.ns + 1 * Second⟩ emptyNet,
    .run 1 ⟨sampleNow.ns + 1 * Second⟩ emptyNet,
    .run 1 ⟨sampleNow.ns + 1 * Second⟩ emptyNet ]

/-- The state that `sampleActions` leads to. -/
def sampleFinal : State :=
  { cachedTracks := {}
    lastCacheTime := ⟨sampleNow.ns + 1 * Second⟩
    readers := 0
    writer := false
    refreshes := [({}, zeroTime), (sampleTracks, sampleNow), ({}, ⟨sampleNow.ns + 1 * Second⟩)]
    threads :=
      [ { apiKey := "key", user := "user", limit := 10, pc := .returned sampleTracks none none },
        { apiKey := "key", user := "user", limit := 20, pc := .returned {} none none },
        { apiKey := "key", user := "user", limit := 50
          pc := .returned { sampleTracks with Cached := true } none
                  (some (sampleTracks, sampleNow)) } ] }

/-! ## Normalisation: theorems -/

theorem imageLoop_eq_find (size : String) (images : List Image) (acc : String) :
    imageLoop size images acc =
      match images.find? (fun img => decide (img.Size = size)) with
      | some img => img.URL
      | none => acc := by
  induction images with
  | nil => rfl
  | cons img rest ih =>
    by_cases h : img.Size = size
    · simp [imageLoop, List.find?, h]
    · simp [imageLoop, List.find?, h, ih]

theorem sizeLoop_eq_artworkNonEmpty (images : List Image) (szs : List String) :
    sizeLoop images szs "" = artworkNonEmpty images szs := by
  induction szs with
  | nil => rfl
  | cons size rest ih =>
    simp only [sizeLoop, artworkNonEmpty, imageLoop_eq_find]
    cases hf : images.find? (fun img => decide (img.Size = size)) with
    | none => simp [ih]
    | some img =>
      by_cases hu : img.URL = ""
      · simp [hu, ih]
      · simp [hu]

theorem artworkNonEmpty_eq_byPriority (images : List Image) (szs : List String)
    (h : ∀ img ∈ images, img.Size ∈ szs → img.URL ≠ "") :
    artworkNonEmpty images szs = artworkByPriority images szs := by
  induction szs with
  | nil => rfl
  | cons size rest ih =>
    simp only [artworkNonEmpty, artworkByPriority]
    cases hf : images.find? (fun img => decide (img.Size = size)) with
    | none =>
      simp only
      exact ih (fun img hm hs => h img hm (List.mem_cons_of_mem _ hs))
    | some img =>
      have hmem : img ∈ images := List.mem_of_find?_eq_some hf
      have hsz : img.Size = size := by
        have := List.find?_some hf
        simpa using this
      have : img.URL ≠ "" := h img hmem (by simp [hsz])
      simp [this]

/-- C5 (as stated, refuted): a track with a large image whose URL is empty and a medium
image gets the medium image's URL, which is not the URL of the first image of the
highest-priority label present. -/
theorem artwork_priority_counterexample :
    (ConvertToFriendlyTrack { Images := [⟨"large", ""⟩, ⟨"medium", "M"⟩] }).ArtworkURL = "M" ∧
    (ConvertToFriendlyTrack { Images := [⟨"large", ""⟩, ⟨"medium", "M"⟩] }).ArtworkURL ≠
      artworkByPriority [⟨"large", ""⟩, ⟨"medium", "M"⟩] sizes := by
  decide

/-- C5 (amended): `ArtworkURL` is the URL of the first image of the highest-priority
label, in the order extralarge, large, medium, small, whose first image has a
non-empty URL, and empty when there is no such label. When no image with one of
the four labels has an empty URL this is the URL of the first image of the
highest-priority label present; and a track without an extralarge image whose
first large image has a non-empty URL gets that URL, whatever medium images it has. -/
theorem artwork_priority (track : LastFMTrack) :
    (ConvertToFriendlyTrack track).ArtworkURL = artworkNonEmpty track.Images sizes ∧
    ((∀ img ∈ track.Images, img.Size ∈ sizes → img.URL ≠ "") →
      (ConvertToFriendlyTrack track).ArtworkURL = artworkByPriority track.Images sizes) ∧
    (∀ lg : Image, (∀ img ∈ track.Images, img.Size ≠ "extralarge") →
      track.Images.find? (fun img => decide (img.Size = "large")) = some lg →
      lg.URL ≠ "" → (ConvertToFriendlyTrack track).ArtworkURL = lg.URL) := by
  have h1 : (ConvertToFriendlyTrack track).ArtworkURL = artworkNonEmpty track.Images sizes :=
    sizeLoop_eq_artworkNonEmpty track.Images sizes
  refine ⟨h1, ?_, ?_⟩
  · intro h
    rw [h1]
    exact artworkNonEmpty_eq_byPriority _ _ h
  · intro lg hno hlg hurl
    rw [h1]
    have hx : track.Images.find? (fun img => decide (img.Size = "extralarge")) = none := by
      rw [List.find?_eq_none]
      intro img hm
      simpa using hno img hm
    simp [sizes, artworkNonEmpty, hx, hlg, hurl]

/-- C5, on a track with a medium and a large image, the medium one first. -/
theorem artwork_priority_witness :
    (ConvertToFriendlyTrack { Images := [⟨"medium", "M"⟩, ⟨"large", "L"⟩] }).ArtworkURL = "L" :=
  (artwork_priority { Images := [⟨"medium", "M"⟩, ⟨"large", "L"⟩] }).2.2 ⟨"large", "L"⟩
    (by decide) (by decide) (by decide)

/-- C8: `IsCurrentlyPlaying` is true exactly when the `nowplaying` attribute is the
string "true", so two tracks with the same attribute get the same flag whatever
their other fields; the empty string, "false", "True" and "1" give false. -/
theorem live_flag (track : LastFMTrack) :
    ((ConvertToFriendlyTrack track).IsCurrentlyPlaying = true ↔ track.NowPlaying = "true") ∧
    (∀ other : LastFMTrack, other.NowPlaying = track.NowPlaying →
      (ConvertToFriendlyTrack other).IsCurrentlyPlaying =
        (ConvertToFriendlyTrack track).IsCurrentlyPlaying) ∧
    (∀ np ∈ ["", "false", "True", "1", "TRUE", " true"],
      (ConvertToFriendlyTrack { track with NowPlaying := np }).IsCurrentlyPlaying = false) := by
  refine ⟨by simp [ConvertToFriendlyTrack], ?_, ?_⟩
  · intro other h
    simp [ConvertToFriendlyTrack, h]
  · intro np hnp
    simp only [List.mem_cons, List.mem_singleton, List.not_mem_nil, or_false] at hnp
    rcases hnp with h | h | h | h | h | h <;> subst h <;> simp [ConvertToFriendlyTrack]

/-- C8, on two tracks that differ in every field but the attribute. -/
theorem live_flag_witness :
    (ConvertToFriendlyTrack { NowPlaying := "true", Name := "a" }).IsCurrentlyPlaying =
      (ConvertToFriendlyTrack { NowPlaying := "true", Name := "b", URL := "u" }).IsCurrentlyPlaying :=
  (live_flag { NowPlaying := "true", Name := "b", URL := "u" }).2.1
    { NowPlaying := "true", Name := "a" } rfl

theorem appendLoop_eq_map (tracks : List LastFMTrack) (acc : List FriendlyTrack) :
    appendLoop tracks acc = acc ++ tracks.map ConvertToFriendlyTrack := by
  induction tracks generalizing acc with
  | nil => simp [appendLoop]
  | cons t rest ih => simp [appendLoop, ih]

/-- C7: when the request is answered with status 200 and a body that decodes to a
response with raw track list `L`, `GetRecentTracksWithFriendlyFormat` returns a
nil error, `Tracks` is `L` mapped through `ConvertToFriendlyTrack` (same length,
the i-th element the conversion of the i-th raw track) and `TotalTracks` is that
length. -/
theorem order_and_count_preserved (net : Transport) (apiKey user : String) (limit : Int)
    (resp : LastFMResponse)
    (h : net { method := "user.getrecenttracks", user := user, api_key := apiKey, limit := limit }
      = .ok { StatusCode := 200, Body := .ok resp }) :
    (GetRecentTracksWithFriendlyFormat net apiKey user limit).err = none ∧
    (GetRecentTracksWithFriendlyFormat net apiKey user limit).tracks.Tracks
      = resp.RecentTracks.Tracks.map ConvertToFriendlyTrack ∧
    (GetRecentTracksWithFriendlyFormat net apiKey user limit).tracks.Tracks.length
      = resp.RecentTracks.Tracks.length ∧
    (∀ i : Nat, (GetRecentTracksWithFriendlyFormat net apiKey user limit).tracks.Tracks[i]?
      = (resp.RecentTracks.Tracks[i]?).map ConvertToFriendlyTrack) ∧
    (GetRecentTracksWithFriendlyFormat net apiKey user limit).tracks.TotalTracks
      = Int.ofNat resp.RecentTracks.Tracks.length := by
  have hx : fetchLastFMRecentTracksXML net apiKey user limit
      = { result := .ok resp
          requests := [{ method := "user.getrecenttracks", user := user, api_key := apiKey,
                         limit := limit }] } := by
    simp [fetchLastFMRecentTracksXML, h]
  simp [GetRecentTracksWithFriendlyFormat, hx, appendLoop_eq_map]

/-- C7, on three raw records with timestamps 100, 200, 300. -/
theorem order_and_count_preserved_witness :
    (GetRecentTracksWithFriendlyFormat
        (fun _ => .ok { StatusCode := 200, Body := .ok { RecentTracks := { Tracks :=
          [{ Date := { UTS := "100" } }, { Date := { UTS := "200" } },
           { Date := { UTS := "300" } }] } } })
        "key" "user" 3).tracks.Tracks
      = List.map ConvertToFriendlyTrack
          [{ Date := { UTS := "100" } }, { Date := { UTS := "200" } },
           { Date := { UTS := "300" } }] ∧
    (List.map ConvertToFriendlyTrack
          [{ Date := { UTS := "100" } }, { Date := { UTS := "200" } },
           { Date := { UTS := "300" } }]).map (fun t => t.EpochTimePlayed) = [100, 200, 300] :=
  ⟨(order_and_count_preserved
        (fun _ => .ok { StatusCode := 200, Body := .ok { RecentTracks := { Tracks :=
          [{ Date := { UTS := "100" } }, { Date := { UTS := "200" } },
           { Date := { UTS := "300" } }] } } })
        "key" "user" 3 _ rfl).2.1, by decide⟩

/-! ## `strconv.ParseInt` on decimal strings -/

theorem digit_le_nine (c : Char) (h : c.isDigit = true) : c.toNat - 48 ≤ 9 := by
  simp only [Char.isDigit, Bool.and_eq_true, decide_eq_true_eq] at h
  obtain ⟨h1, h2⟩ := h
  have h2' : c.val.toNat ≤ 57 := h2
  simp only [Char.toNat]
  omega

theorem le_foldl_digits (ds : List Char) (n : Nat) :
    n ≤ ds.foldl (fun n c => n * 10 + (c.toNat - 48)) n := by
  induction ds generalizing n with
  | nil => simp
  | cons c cs ih =>
    simp only [List.foldl_cons]
    have := ih (n * 10 + (c.toNat - 48))
    omega

theorem parseUintLoop_digits (ds : List Char) (n : Nat) (hd : allDigits ds)
    (hn : n ≤ maxUint64) :
    parseUintLoop ds n =
      if ds.foldl (fun n c => n * 10 + (c.toNat - 48)) n ≤ maxUint64 then
        (ds.foldl (fun n c => n * 10 + (c.toNat - 48)) n, none)
      else (maxUint64, some .ErrRange) := by
  induction ds generalizing n with
  | nil => simp [parseUintLoop, hn]
  | cons c cs ih =>
    have hc : c.isDigit = true := hd c (List.mem_cons_self _ _)
    have hcs : allDigits cs := fun x hx => hd x (List.mem_cons_of_mem _ hx)
    have h9 := digit_le_nine c hc
    have hge := le_foldl_digits cs (n * 10 + (c.toNat - 48))
    have e : (2:Nat) ^ 64 = 18446744073709551616 := by norm_num
    simp only [parseUintLoop, hc, if_true, List.foldl_cons, e]
    unfold maxUint64 at *
    by_cases h1 : n ≥ 18446744073709551615 / 10 + 1
    · rw [if_pos h1, if_neg (by omega)]
    · rw [if_neg h1]
      by_cases h2 : n * 10 + (c.toNat - 48) ≤ 18446744073709551615
      · have e1 : (n * 10 % 18446744073709551616 + (c.toNat - 48)) % 18446744073709551616
            = n * 10 + (c.toNat - 48) := by omega
        have e2 : n * 10 % 18446744073709551616 = n * 10 := by omega
        rw [e1, e2, if_neg (by omega)]
        exact ih _ hcs h2
      · rw [if_pos (by omega), if_neg (by omega)]

theorem parseUintLoop_nondigit (ds : List Char) (n : Nat) (c : Char) (rest : List Char)
    (hd : allDigits ds) (hv : ds.foldl (fun n c => n * 10 + (c.toNat - 48)) n ≤ maxUint64)
    (hc : c.isDigit = false) :
    parseUintLoop (ds ++ c :: rest) n = (0, some .ErrSyntax) := by
  induction ds generalizing n with
  | nil => simp [parseUintLoop, hc]
  | cons x xs ih =>
    have hx : x.isDigit = true := hd x (List.mem_cons_self _ _)
    have hxs : allDigits xs := fun y hy => hd y (List.mem_cons_of_mem _ hy)
    have h9 := digit_le_nine x hx
    simp only [List.foldl_cons] at hv
    have hge := le_foldl_digits xs (n * 10 + (x.toNat - 48))
    have e : (2:Nat) ^ 64 = 18446744073709551616 := by norm_num
    simp only [List.cons_append, parseUintLoop, hx, if_true, e]
    unfold maxUint64 at *
    have e1 : (n * 10 % 18446744073709551616 + (x.toNat - 48)) % 18446744073709551616
        = n * 10 + (x.toNat - 48) := by omega
    have e2 : n * 10 % 18446744073709551616 = n * 10 := by omega
    rw [if_neg (by omega), e1, e2, if_neg (by omega)]
    exact ih _ hxs hv

theorem parseUintLoop_overflow (ds rest : List Char) (n : Nat) (hd : allDigits ds)
    (hn : n ≤ maxUint64)
    (hv : maxUint64 < ds.foldl (fun n c => n * 10 + (c.toNat - 48)) n) :
    parseUintLoop (ds ++ rest) n = (maxUint64, some .ErrRange) := by
  induction ds generalizing n with
  | nil => simp only [List.foldl_nil] at hv; omega
  | cons x xs ih =>
    have hx : x.isDigit = true := hd x (List.mem_cons_self _ _)
    have hxs : allDigits xs := fun y hy => hd y (List.mem_cons_of_mem _ hy)
    have h9 := digit_le_nine x hx
    simp only [List.foldl_cons] at hv
    have e : (2:Nat) ^ 64 = 18446744073709551616 := by norm_num
    simp only [List.cons_append, parseUintLoop, hx, if_true, e]
    by_cases h1 : n ≥ maxUint64 / 10 + 1
    · rw [if_pos h1]
    · rw [if_neg h1]
      by_cases h2 : n * 10 + (x.toNat - 48) ≤ maxUint64
      · unfold maxUint64 at h1 h2 hn
        have e1 : (n * 10 % 18446744073709551616 + (x.toNat - 48)) % 18446744073709551616
            = n * 10 + (x.toNat - 48) := by omega
        have e2 : n * 10 % 18446744073709551616 = n * 10 := by omega
        rw [e1, e2, if_neg (by unfold maxUint64; omega)]
        exact ih _ hxs (by unfold maxUint64; exact h2) hv
      · unfold maxUint64 at h1 h2 hn
        rw [if_pos (by unfold maxUint64; omega)]

theorem ParseUint_digits (ds : List Char) (hne : ds ≠ []) (hd : allDigits ds) :
    ParseUint ds =
      if decimalValue ds ≤ maxUint64 then (decimalValue ds, none)
      else (maxUint64, some .ErrRange) := by
  cases ds with
  | nil => exact absurd rfl hne
  | cons c cs =>
    simp only [ParseUint, decimalValue]
    exact parseUintLoop_digits (c :: cs) 0 hd (by unfold maxUint64; omega)

theorem ParseUint_nondigit (ds : List Char) (c : Char) (rest : List Char)
    (hd : allDigits ds) (hv : decimalValue ds ≤ maxUint64) (hc : c.isDigit = false) :
    ParseUint (ds ++ c :: rest) = (0, some .ErrSyntax) := by
  have h := parseUintLoop_nondigit ds 0 c rest hd hv hc
  cases ds with
  | nil => simpa [ParseUint] using h
  | cons x xs => simpa [ParseUint] using h

theorem ParseUint_overflow (ds rest : List Char) (hd : allDigits ds)
    (hv : maxUint64 < decimalValue ds) :
    ParseUint (ds ++ rest) = (maxUint64, some .ErrRange) := by
  have h := parseUintLoop_overflow ds rest 0 hd (by unfold maxUint64; omega) hv
  cases ds with
  | nil => simp [decimalValue] at hv
  | cons x xs => simpa [ParseUint] using h

theorem digit_not_sign (c : Char) (hc : c.isDigit = true) : c ≠ '+' ∧ c ≠ '-' := by
  constructor <;> (intro h; subst h; revert hc; decide)

theorem ParseInt_cons (s : String) (c : Char) (cs : List Char) (hs : s.toList = c :: cs) :
    ParseInt s =
      if (ParseUint (if c = '+' ∨ c = '-' then cs else c :: cs)).2 = some .ErrSyntax then
        (0, some .ErrSyntax)
      else if !decide (c = '-') ∧
          (ParseUint (if c = '+' ∨ c = '-' then cs else c :: cs)).1 ≥ int64Cutoff then
        (Int.ofNat (int64Cutoff - 1), some .ErrRange)
      else if decide (c = '-') ∧
          (ParseUint (if c = '+' ∨ c = '-' then cs else c :: cs)).1 > int64Cutoff then
        (-(Int.ofNat int64Cutoff), some .ErrRange)
      else (if decide (c = '-') then
              -(Int.ofNat (ParseUint (if c = '+' ∨ c = '-' then cs else c :: cs)).1)
            else Int.ofNat (ParseUint (if c = '+' ∨ c = '-' then cs else c :: cs)).1, none) := by
  simp only [ParseInt, hs]

theorem ParseInt_unsigned_body (s : String) (c : Char) (cs ds : List Char)
    (hs : s.toList = c :: cs) (hb : (if c = '+' ∨ c = '-' then cs else c :: cs) = ds)
    (hneg : c ≠ '-') (hne : ds ≠ []) (hd : allDigits ds) :
    ParseInt s =
      if decimalValue ds < int64Cutoff then (((decimalValue ds : Nat) : Int), none)
      else (9223372036854775807, some .ErrRange) := by
  rw [ParseInt_cons s c cs hs, hb, ParseUint_digits ds hne hd]
  unfold maxUint64 int64Cutoff
  by_cases h1 : decimalValue ds ≤ 18446744073709551615
  · by_cases h2 : decimalValue ds < 9223372036854775808
    · simp [h1, h2, hneg]
    · have h3 : 9223372036854775808 ≤ decimalValue ds := by omega
      simp [h1, h2, hneg, h3]
  · have h2 : ¬ decimalValue ds < 9223372036854775808 := by omega
    simp [h1, h2, hneg]

theorem ParseInt_digits (s : String) (ds : List Char) (hne : ds ≠ []) (hd : allDigits ds)
    (hs : s.toList = ds ∨ s.toList = '+' :: ds) :
    ParseInt s =
      if decimalValue ds < int64Cutoff then (((decimalValue ds : Nat) : Int), none)
      else (9223372036854775807, some .ErrRange) := by
  rcases hs with hs | hs
  · cases ds with
    | nil => exact absurd rfl hne
    | cons c cs =>
      have hc := digit_not_sign c (hd c (List.mem_cons_self _ _))
      exact ParseInt_unsigned_body s c cs (c :: cs) hs (by simp [hc.1, hc.2]) hc.2 hne hd
  · exact ParseInt_unsigned_body s '+' ds ds hs (by simp) (by decide) hne hd

theorem ParseInt_minus_digits (s : String) (ds : List Char) (hne : ds ≠ []) (hd : allDigits ds)
    (hs : s.toList = '-' :: ds) :
    ParseInt s =
      if decimalValue ds ≤ int64Cutoff then (-((decimalValue ds : Nat) : Int), none)
      else (-9223372036854775808, some .ErrRange) := by
  rw [ParseInt_cons s '-' ds hs]
  simp only [or_true, if_true, ParseUint_digits ds hne hd]
  unfold maxUint64 int64Cutoff
  by_cases h1 : decimalValue ds ≤ 18446744073709551615
  · by_cases h2 : decimalValue ds ≤ 9223372036854775808
    · have h3 : ¬ 9223372036854775808 < decimalValue ds := by omega
      simp [h1, h2, h3]
    · have h3 : 9223372036854775808 < decimalValue ds := by omega
      simp [h1, h2, h3]
  · have h2 : ¬ decimalValue ds ≤ 9223372036854775808 := by omega
    simp [h1, h2]

theorem ParseInt_of_syntax (s : String) (c : Char) (cs : List Char) (hs : s.toList = c :: cs)
    (hb : ParseUint (if c = '+' ∨ c = '-' then cs else c :: cs) = (0, some .ErrSyntax)) :
    ParseInt s = (0, some .ErrSyntax) := by
  rw [ParseInt_cons s c cs hs, hb]
  simp

theorem ParseInt_empty (s : String)
    (hs : s.toList = [] ∨ s.toList = ['+'] ∨ s.toList = ['-']) :
    ParseInt s = (0, some .ErrSyntax) := by
  rcases hs with hs | hs | hs
  · simp only [ParseInt, hs]
  · exact ParseInt_of_syntax s '+' [] hs (by simp [ParseUint])
  · exact ParseInt_of_syntax s '-' [] hs (by simp [ParseUint])

theorem ParseInt_nondigit (s : String) (ds : List Char) (c : Char) (rest : List Char)
    (hd : allDigits ds) (hv : decimalValue ds ≤ maxUint64) (hc : c.isDigit = false)
    (hs : s.toList = '+' :: (ds ++ c :: rest) ∨ s.toList = '-' :: (ds ++ c :: rest) ∨
      (s.toList = ds ++ c :: rest ∧ (ds = [] → c ≠ '+' ∧ c ≠ '-'))) :
    ParseInt s = (0, some .ErrSyntax) := by
  have hu := ParseUint_nondigit ds c rest hd hv hc
  rcases hs with hs | hs | ⟨hs, hsign⟩
  · exact ParseInt_of_syntax s '+' _ hs (by simpa using hu)
  · exact ParseInt_of_syntax s '-' _ hs (by simpa using hu)
  · cases ds with
    | nil =>
      have h := hsign rfl
      exact ParseInt_of_syntax s c rest (by simpa using hs) (by simpa [h.1, h.2] using hu)
    | cons x xs =>
      have hx := digit_not_sign x (hd x (List.mem_cons_self _ _))
      exact ParseInt_of_syntax s x (xs ++ c :: rest) (by simpa using hs)
        (by simpa [hx.1, hx.2] using hu)

theorem ParseInt_overflow (s : String) (ds rest : List Char) (hd : allDigits ds)
    (hv : maxUint64 < decimalValue ds) :
    ((s.toList = ds ++ rest ∨ s.toList = '+' :: (ds ++ rest)) →
      ParseInt s = (9223372036854775807, some .ErrRange)) ∧
    (s.toList = '-' :: (ds ++ rest) → ParseInt s = (-9223372036854775808, some .ErrRange)) := by
  have hu := ParseUint_overflow ds rest hd hv
  refine ⟨?_, ?_⟩
  · rintro (hs | hs)
    · cases ds with
      | nil => simp [decimalValue] at hv
      | cons x xs =>
        have hx := digit_not_sign x (hd x (List.mem_cons_self _ _))
        rw [ParseInt_cons s x (xs ++ rest) (by simpa using hs)]
        simp only [hx.1, hx.2, or_self, if_false]
        rw [show x :: (xs ++ rest) = (x :: xs) ++ rest from rfl, hu]
        simp [maxUint64, int64Cutoff]
    · rw [ParseInt_cons s '+' _ hs]
      simp only [true_or, if_true, hu]
      simp [maxUint64, int64Cutoff]
  · intro hs
    rw [ParseInt_cons s '-' _ hs]
    simp only [or_true, if_true, hu]
    simp [maxUint64, int64Cutoff]

/-- C6 (as stated, refuted): the digit string 9223372036854775808 is outside the int64
range, `ParseInt` reports a range error for it, and `EpochTimePlayed` is the
largest int64, not 0. -/
theorem timestamp_fallback_counterexample :
    (ParseInt "9223372036854775808").2 = some .ErrRange ∧
    (ConvertToFriendlyTrack { Date := { UTS := "9223372036854775808" } }).EpochTimePlayed
      = 9223372036854775807 ∧
    (ConvertToFriendlyTrack { Date := { UTS := "9223372036854775808" } }).EpochTimePlayed ≠ 0 := by
  decide

/-- C6 (amended): a record is produced for every `Date.UTS`, and its `EpochTimePlayed` is
* the integer denoted, when the string is an optional sign followed by decimal
  digits and that integer is in the int64 range; the nearest int64 bound when it
  is outside the range;
* 0 when the string is empty, a sign alone, or has a character that is not a digit
  after a (possibly empty) run of digits whose value fits 64 unsigned bits;
* the nearest int64 bound when the string begins with digits whose value already
  exceeds 64 unsigned bits, whatever follows. -/
theorem timestamp_fallback (track : LastFMTrack) :
    (∀ ds : List Char, ds ≠ [] → allDigits ds →
      (track.Date.UTS.toList = ds ∨ track.Date.UTS.toList = '+' :: ds) →
      (ConvertToFriendlyTrack track).EpochTimePlayed
        = ((min (decimalValue ds) 9223372036854775807 : Nat) : Int)) ∧
    (∀ ds : List Char, ds ≠ [] → allDigits ds → track.Date.UTS.toList = '-' :: ds →
      (ConvertToFriendlyTrack track).EpochTimePlayed
        = -((min (decimalValue ds) 9223372036854775808 : Nat) : Int)) ∧
    ((track.Date.UTS.toList = [] ∨ track.Date.UTS.toList = ['+'] ∨
        track.Date.UTS.toList = ['-']) →
      (ConvertToFriendlyTrack track).EpochTimePlayed = 0) ∧
    (∀ (ds : List Char) (c : Char) (rest : List Char), allDigits ds →
      decimalValue ds ≤ maxUint64 → c.isDigit = false →
      (track.Date.UTS.toList = '+' :: (ds ++ c :: rest) ∨
        track.Date.UTS.toList = '-' :: (ds ++ c :: rest) ∨
        (track.Date.UTS.toList = ds ++ c :: rest ∧ (ds = [] → c ≠ '+' ∧ c ≠ '-'))) →
      (ConvertToFriendlyTrack track).EpochTimePlayed = 0) ∧
    (∀ ds rest : List Char, allDigits ds → maxUint64 < decimalValue ds →
      ((track.Date.UTS.toList = ds ++ rest ∨ track.Date.UTS.toList = '+' :: (ds ++ rest)) →
        (ConvertToFriendlyTrack track).EpochTimePlayed = 9223372036854775807) ∧
      (track.Date.UTS.toList = '-' :: (ds ++ rest) →
        (ConvertToFriendlyTrack track).EpochTimePlayed = -9223372036854775808)) := by
  have he : (ConvertToFriendlyTrack track).EpochTimePlayed = (ParseInt track.Date.UTS).1 := rfl
  refine ⟨?_, ?_, ?_, ?_, ?_⟩
  · intro ds hne hd hs
    rw [he, ParseInt_digits _ ds hne hd hs]
    unfold int64Cutoff
    by_cases h : decimalValue ds < 9223372036854775808
    · rw [if_pos h, Nat.min_eq_left (by omega)]
    · rw [if_neg h, Nat.min_eq_right (by omega)]
      rfl
  · intro ds hne hd hs
    rw [he, ParseInt_minus_digits _ ds hne hd hs]
    unfold int64Cutoff
    by_cases h : decimalValue ds ≤ 9223372036854775808
    · rw [if_pos h, Nat.min_eq_left h]
    · rw [if_neg h, Nat.min_eq_right (by omega)]
      rfl
  · intro hs
    rw [he, ParseInt_empty _ hs]
  · intro ds c rest hd hv hc hs
    rw [he, ParseInt_nondigit _ ds c rest hd hv hc hs]
  · intro ds rest hd hv
    constructor
    · intro hs
      rw [he, (ParseInt_overflow _ ds rest hd hv).1 hs]
    · intro hs
      rw [he, (ParseInt_overflow _ ds rest hd hv).2 hs]

/-- C6, on the timestamp 1700000000. -/
theorem timestamp_fallback_witness :
    (ConvertToFriendlyTrack { Date := { UTS := "1700000000" } }).EpochTimePlayed
      = ((min (decimalValue "1700000000".toList) 9223372036854775807 : Nat) : Int) ∧
    ((min (decimalValue "1700000000".toList) 9223372036854775807 : Nat) : Int) = 1700000000 :=
  ⟨(timestamp_fallback { Date := { UTS := "1700000000" } }).1 "1700000000".toList
      (by decide) (by unfold allDigits; decide) (Or.inl rfl), by decide⟩

/-! ## The cache, one call after the other -/

theorem Sub_lt_cacheDuration (t u : Time) :
    t.Sub u < cacheDuration ↔ t.ns - u.ns < cacheDuration := by
  unfold Time.Sub cacheDuration Second minDuration maxDuration
  simp only
  split_ifs <;> omega

theorem fetch_requests (net : Transport) (apiKey user : String) (limit : Int) :
    (fetchLastFMRecentTracksXML net apiKey user limit).requests
      = [{ method := "user.getrecenttracks", user := user, api_key := apiKey, limit := limit }] := by
  unfold fetchLastFMRecentTracksXML
  simp only
  split
  · rfl
  · split
    · rfl
    · split <;> rfl

theorem GetRecentTracks_requests (net : Transport) (apiKey user : String) (limit : Int) :
    (GetRecentTracksWithFriendlyFormat net apiKey user limit).requests
      = [{ method := "user.getrecenttracks", user := user, api_key := apiKey, limit := limit }] := by
  unfold GetRecentTracksWithFriendlyFormat
  simp only
  split <;> exact fetch_requests net apiKey user limit

theorem GetRecentTracks_not_cached (net : Transport) (apiKey user : String) (limit : Int) :
    (GetRecentTracksWithFriendlyFormat net apiKey user limit).tracks.Cached = false := by
  unfold GetRecentTracksWithFriendlyFormat
  simp only
  split <;> rfl

theorem getCached_hit (net : Transport) (now : Time) (apiKey user : String) (limit : Int)
    (c : Cache) (h : now.ns - c.lastCacheTime.ns < cacheDuration) :
    getCachedRecentTracks net now apiKey user limit c
      = { tracks := { c.cachedTracks with Cached := true }, err := none, cache := c,
          requests := [] } := by
  unfold getCachedRecentTracks
  rw [if_pos ((Sub_lt_cacheDuration _ _).2 h)]

theorem getCached_miss (net : Transport) (now : Time) (apiKey user : String) (limit : Int)
    (c : Cache) (h : cacheDuration ≤ now.ns - c.lastCacheTime.ns) :
    getCachedRecentTracks net now apiKey user limit c
      = match (GetRecentTracksWithFriendlyFormat net apiKey user limit).err with
        | some err =>
          { tracks := {}, err := some err, cache := c
            requests := (GetRecentTracksWithFriendlyFormat net apiKey user limit).requests }
        | none =>
          { tracks := (GetRecentTracksWithFriendlyFormat net apiKey user limit).tracks
            err := none
            cache :=
              { cachedTracks := (GetRecentTracksWithFriendlyFormat net apiKey user limit).tracks
                lastCacheTime := now }
            requests := (GetRecentTracksWithFriendlyFormat net apiKey user limit).requests } := by
  unfold getCachedRecentTracks
  rw [if_neg (fun hlt => absurd ((Sub_lt_cacheDuration _ _).1 hlt) (by omega))]

/-- The three outcomes of a call: served from the cache, failed refresh (both leave the
package variables alone), or successful refresh that stores its result and clock
reading. -/
theorem call_outcomes (k : Call) (c : Cache) :
    ((k.run c).requests = [] ∧ (k.run c).cache = c) ∨
    ((k.run c).requests ≠ [] ∧ (k.run c).err ≠ none ∧ (k.run c).cache = c) ∨
    ((k.run c).requests ≠ [] ∧ (k.run c).err = none ∧
      (k.run c).cache = { cachedTracks := (k.run c).tracks, lastCacheTime := k.now }) := by
  unfold Call.run
  by_cases h : k.now.ns - c.lastCacheTime.ns < cacheDuration
  · left
    rw [getCached_hit _ _ _ _ _ _ h]
    exact ⟨rfl, rfl⟩
  · right
    rw [getCached_miss _ _ _ _ _ _ (by omega)]
    have hr := GetRecentTracks_requests k.net k.apiKey k.user k.limit
    cases he : (GetRecentTracksWithFriendlyFormat k.net k.apiKey k.user k.limit).err with
    | some e => left; simp [hr]
    | none => right; simp [hr]

theorem runCalls_of_lastRefresh (ks : List Call) (c : Cache)
    (acc : Option (Time × FriendlyRecentTracks))
    (hacc : ∀ t V, acc = some (t, V) → c = { cachedTracks := V, lastCacheTime := t })
    (t0 : Time) (V : FriendlyRecentTracks) (h : lastRefresh c ks acc = some (t0, V)) :
    runCalls c ks = { cachedTracks := V, lastCacheTime := t0 } := by
  induction ks generalizing c acc with
  | nil => exact hacc t0 V h
  | cons k ks ih =>
    simp only [lastRefresh] at h
    simp only [runCalls]
    refine ih _ _ ?_ h
    intro t W hW
    rcases call_outcomes k c with ⟨h1, h2⟩ | ⟨_, h1, h2⟩ | ⟨h1, h2, h3⟩
    · rw [if_neg (fun hc => hc.1 h1)] at hW
      rw [h2]
      exact hacc t W hW
    · rw [if_neg (fun hc => h1 hc.2)] at hW
      rw [h2]
      exact hacc t W hW
    · rw [if_pos ⟨h1, h2⟩] at hW
      simp only [Option.some.injEq, Prod.mk.injEq] at hW
      rw [h3, hW.1, hW.2]

/-- C1: in every sequence of calls made one after the other from any state, if the most
recent successful refresh read the clock at `t0` and returned `V`, a further call
at a time `t` with `t - t0 < cacheDuration` returns `V` with `Cached = true` and a
nil error, sends no request and leaves the package variables as that refresh set
them, whatever `apiKey`, `user` and `limit` (and network) the call has. -/
theorem freshness_hit (c0 : Cache) (ks : List Call) (k : Call) (t0 : Time)
    (V : FriendlyRecentTracks) (hlast : lastRefresh c0 ks none = some (t0, V))
    (hfresh : k.now.ns - t0.ns < cacheDuration) :
    k.run (runCalls c0 ks)
      = { tracks := { V with Cached := true }, err := none
          cache := { cachedTracks := V, lastCacheTime := t0 }, requests := [] } := by
  have hc := runCalls_of_lastRefresh ks c0 none (fun _ _ h => by cases h) t0 V hlast
  rw [hc]
  unfold Call.run
  rw [getCached_hit _ _ _ _ _ _ hfresh]

/-- C1, on a failed refresh from the initial state, a successful one with limit 10 a
second later, and then a call four seconds after that with limit 50, other
credentials and the network down. -/
theorem freshness_hit_witness :
    lastRefresh Cache.initial
        [⟨fun _ => .error "down", sampleNow, "key", "user", 10⟩,
         ⟨sampleNet, ⟨sampleNow.ns + 1 * Second⟩, "key", "user", 10⟩] none
      = some (⟨sampleNow.ns + 1 * Second⟩, sampleTracks) ∧
    Call.run ⟨fun _ => .error "down", ⟨sampleNow.ns + 5 * Second⟩, "other", "someone", 50⟩
        (runCalls Cache.initial
          [⟨fun _ => .error "down", sampleNow, "key", "user", 10⟩,
           ⟨sampleNet, ⟨sampleNow.ns + 1 * Second⟩, "key", "user", 10⟩])
      = { tracks := { sampleTracks with Cached := true }, err := none
          cache := { cachedTracks := sampleTracks, lastCacheTime := ⟨sampleNow.ns + 1 * Second⟩ }
          requests := [] } :=
  ⟨by decide,
   freshness_hit Cache.initial
     [⟨fun _ => .error "down", sampleNow, "key", "user", 10⟩,
      ⟨sampleNet, ⟨sampleNow.ns + 1 * Second⟩, "key", "user", 10⟩]
     ⟨fun _ => .error "down", ⟨sampleNow.ns + 5 * Second⟩, "other", "someone", 50⟩
     ⟨sampleNow.ns + 1 * Second⟩ sampleTracks (by decide) (by decide)⟩

/-- C2: from every state of the package variables, a call at a time `now` with
`now - lastCacheTime >= cacheDuration` sends exactly one request, carrying the
arguments of the call; if the fetch returns `V` with a nil error, the package
variables afterwards are `cachedTracks = V` and `lastCacheTime = now` (the clock
reading made before the fetch), and the call returns `V`, whose `Cached` is
false, with a nil error. -/
theorem expiry_refresh (net : Transport) (now : Time) (apiKey user : String) (limit : Int)
    (c : Cache) (h : cacheDuration ≤ now.ns - c.lastCacheTime.ns) :
    (getCachedRecentTracks net now apiKey user limit c).requests
      = [{ method := "user.getrecenttracks", user := user, api_key := apiKey, limit := limit }] ∧
    (∀ V : FriendlyRecentTracks,
      (GetRecentTracksWithFriendlyFormat net apiKey user limit).err = none →
      (GetRecentTracksWithFriendlyFormat net apiKey user limit).tracks = V →
      (getCachedRecentTracks net now apiKey user limit c).cache
        = { cachedTracks := V, lastCacheTime := now } ∧
      (getCachedRecentTracks net now apiKey user limit c).tracks = V ∧
      (getCachedRecentTracks net now apiKey user limit c).tracks.Cached = false ∧
      (getCachedRecentTracks net now apiKey user limit c).err = none) := by
  rw [getCached_miss _ _ _ _ _ _ h]
  have hr := GetRecentTracks_requests net apiKey user limit
  have hc := GetRecentTracks_not_cached net apiKey user limit
  constructor
  · cases he : (GetRecentTracksWithFriendlyFormat net apiKey user limit).err <;> simp [hr]
  · intro V he hV
    subst hV
    simp [he, hc]

/-- C2, on the initial state in 2026 with a network that answers. -/
theorem expiry_refresh_witness :
    (getCachedRecentTracks sampleNet sampleNow "key" "user" 10 Cache.initial).requests
      = [{ method := "user.getrecenttracks", user := "user", api_key := "key", limit := 10 }] ∧
    (getCachedRecentTracks sampleNet sampleNow "key" "user" 10 Cache.initial).cache
      = { cachedTracks := sampleTracks, lastCacheTime := sampleNow } ∧
    (getCachedRecentTracks sampleNet sampleNow "key" "user" 10 Cache.initial).tracks
      = sampleTracks :=
  ⟨(expiry_refresh sampleNet sampleNow "key" "user" 10 Cache.initial (by decide)).1,
   ((expiry_refresh sampleNet sampleNow "key" "user" 10 Cache.initial (by decide)).2
      sampleTracks (by decide) (by decide)).1,
   ((expiry_refresh sampleNet sampleNow "key" "user" 10 Cache.initial (by decide)).2
      sampleTracks (by decide) (by decide)).2.1⟩

/-- C3: from every state of the package variables, when a call takes the refresh path
and the fetch returns the error `e`, the call returns the zero
`FriendlyRecentTracks` and the same `e`, and `cachedTracks` and `lastCacheTime`
are unchanged, so that every later call behaves as it would have without the
failed one. -/
theorem failure_preserves_state (net : Transport) (now : Time) (apiKey user : String)
    (limit : Int) (c : Cache) (e : Error)
    (hmiss : cacheDuration ≤ now.ns - c.lastCacheTime.ns)
    (hfail : (GetRecentTracksWithFriendlyFormat net apiKey user limit).err = some e) :
    (getCachedRecentTracks net now apiKey user limit c).tracks = {} ∧
    (getCachedRecentTracks net now apiKey user limit c).err = some e ∧
    (getCachedRecentTracks net now apiKey user limit c).cache = c ∧
    (∀ k : Call, k.run (getCachedRecentTracks net now apiKey user limit c).cache = k.run c) := by
  rw [getCached_miss _ _ _ _ _ _ hmiss]
  simp [hfail]

/-- C3, on a populated cache six seconds old and a network that is down. -/
theorem failure_preserves_state_witness :
    (getCachedRecentTracks downNet ⟨sampleNow.ns + 6 * Second⟩ "key" "user" 10
        { cachedTracks := sampleTracks, lastCacheTime := sampleNow }).tracks = {} ∧
    (getCachedRecentTracks downNet ⟨sampleNow.ns + 6 * Second⟩ "key" "user" 10
        { cachedTracks := sampleTracks, lastCacheTime := sampleNow }).err
      = some "error making request: down" ∧
    (getCachedRecentTracks downNet ⟨sampleNow.ns + 6 * Second⟩ "key" "user" 10
        { cachedTracks := sampleTracks, lastCacheTime := sampleNow }).cache
      = { cachedTracks := sampleTracks, lastCacheTime := sampleNow } :=
  ⟨(failure_preserves_state downNet ⟨sampleNow.ns + 6 * Second⟩ "key" "user" 10
      { cachedTracks := sampleTracks, lastCacheTime := sampleNow }
      "error making request: down" (by decide) (by decide)).1,
   (failure_preserves_state downNet ⟨sampleNow.ns + 6 * Second⟩ "key" "user" 10
      { cachedTracks := sampleTracks, lastCacheTime := sampleNow }
      "error making request: down" (by decide) (by decide)).2.1,
   (failure_preserves_state downNet ⟨sampleNow.ns + 6 * Second⟩ "key" "user" 10
      { cachedTracks := sampleTracks, lastCacheTime := sampleNow }
      "error making request: down" (by decide) (by decide)).2.2.1⟩

/-- In the initial state a call at a time at least `cacheDuration` after the zero time
takes the refresh path: it sends exactly one request and what it returns has
`Cached = false`. -/
theorem initial_state_stale (net : Transport) (now : Time) (apiKey user : String)
    (limit : Int) (h : cacheDuration ≤ now.ns - zeroTime.ns) :
    (getCachedRecentTracks net now apiKey user limit Cache.initial).requests
      = [{ method := "user.getrecenttracks", user := user, api_key := apiKey, limit := limit }] ∧
    (getCachedRecentTracks net now apiKey user limit Cache.initial).tracks.Cached = false := by
  rw [getCached_miss _ _ _ _ _ Cache.initial h]
  have hr := GetRecentTracks_requests net apiKey user limit
  have hc := GetRecentTracks_not_cached net apiKey user limit
  cases he : (GetRecentTracksWithFriendlyFormat net apiKey user limit).err with
  | some e => exact ⟨hr, rfl⟩
  | none => exact ⟨hr, hc⟩

/-- C4: in the initial state (`cachedTracks` the zero value, `lastCacheTime` the zero
time), for every current time `now` that `time.Now()` can read, and every
network and arguments, a call of `getCachedRecentTracks` performs a refresh: it
sends exactly one request, carrying the arguments of the call, and what it
returns has `Cached = false`, so the never-populated value is never returned as
a cache hit. -/
theorem initial_state_refreshes (net : Transport) (now : Time) (apiKey user : String)
    (limit : Int) (h : unixEpoch.ns ≤ now.ns) :
    (getCachedRecentTracks net now apiKey user limit Cache.initial).requests
      = [{ method := "user.getrecenttracks", user := user, api_key := apiKey, limit := limit }] ∧
    (getCachedRecentTracks net now apiKey user limit Cache.initial).tracks.Cached = false := by
  refine initial_state_stale net now apiKey user limit ?_
  have h1 : unixEpoch.ns = 62135596800000000000 := by decide
  have h2 : cacheDuration = 5000000000 := by decide
  have h3 : zeroTime.ns = 0 := rfl
  omega

/-- C4, at the first instant of 1970 with the network down. -/
theorem initial_state_refreshes_witness :
    (getCachedRecentTracks downNet unixEpoch "key" "user" 10 Cache.initial).requests
      = [{ method := "user.getrecenttracks", user := "user", api_key := "key", limit := 10 }] ∧
    (getCachedRecentTracks downNet unixEpoch "key" "user" 10 Cache.initial).tracks.Cached
      = false :=
  initial_state_refreshes downNet unixEpoch "key" "user" 10 (by decide)

/-! ## The `/recent-tracks` handler -/

theorem handler_rejects (net : Transport) (apiKey user : String) (now : Time)
    (query : Values) (c : Cache)
    (h : (parseLimit query).2 ≠ none ∨ (parseLimit query).1 > 50) :
    (recentTracksHandler net apiKey user now query c).status = 400 ∧
    (recentTracksHandler net apiKey user now query c).limits = [] ∧
    (recentTracksHandler net apiKey user now query c).requests = [] ∧
    (recentTracksHandler net apiKey user now query c).cache = c := by
  unfold recentTracksHandler
  simp only
  cases he : (parseLimit query).2 with
  | some e => simp
  | none =>
    have h50 : (parseLimit query).1 > 50 := by
      rcases h with h | h
      · exact absurd he h
      · exact h
    simp [h50]

theorem handler_forwards (net : Transport) (apiKey user : String) (now : Time)
    (query : Values) (c : Cache)
    (h : (parseLimit query).2 = none ∧ (parseLimit query).1 ≤ 50) :
    (recentTracksHandler net apiKey user now query c).status = 200 ∧
    (recentTracksHandler net apiKey user now query c).limits = [(parseLimit query).1] := by
  unfold recentTracksHandler
  simp only [h.1]
  rw [if_neg (by have := h.2; omega)]
  cases (getCachedRecentTracks net now apiKey user (parseLimit query).1 c).err <;> simp

/-- C10 (as stated, refuted): the limit `-5` is forwarded to `getCachedRecentTracks`,
which is not a positive integer; so is `0`; and a `limit` parameter that is
present with an empty value, which is not numeric, is answered with status 200
and the limit 10, not with a 400. -/
theorem limit_validation_counterexample :
    (recentTracksHandler sampleNet "key" "user" sampleNow (limitQuery "-5") Cache.initial).limits
      = [-5] ∧
    (recentTracksHandler sampleNet "key" "user" sampleNow (limitQuery "-5") Cache.initial).status
      = 200 ∧
    (recentTracksHandler sampleNet "key" "user" sampleNow (limitQuery "0") Cache.initial).limits
      = [0] ∧
    (recentTracksHandler sampleNet "key" "user" sampleNow (limitQuery "") Cache.initial).limits
      = [10] ∧
    (recentTracksHandler sampleNet "key" "user" sampleNow (limitQuery "") Cache.initial).status
      = 200 := by
  decide

/-- C10 (amended): with `limit` the pair that the handler computes from the query (10
and no error when the parameter is absent or empty, the result of `strconv.Atoi`
otherwise): if `Atoi` fails or the value is greater than 50, the handler answers
400, does not call `getCachedRecentTracks` and leaves the cache alone; otherwise
it answers 200 and forwards exactly that value, an integer no greater than 50.
`Atoi` accepts an optional sign followed by decimal digits denoting an integer of
the 64-bit range and returns that integer, so zero and negative limits are
forwarded; it fails on digit strings outside that range. -/
theorem limit_validation (net : Transport) (apiKey user : String) (now : Time)
    (query : Values) (c : Cache) :
    (((parseLimit query).2 ≠ none ∨ (parseLimit query).1 > 50) →
      (recentTracksHandler net apiKey user now query c).status = 400 ∧
      (recentTracksHandler net apiKey user now query c).limits = [] ∧
      (recentTracksHandler net apiKey user now query c).requests = [] ∧
      (recentTracksHandler net apiKey user now query c).cache = c) ∧
    (((parseLimit query).2 = none ∧ (parseLimit query).1 ≤ 50) →
      (recentTracksHandler net apiKey user now query c).status = 200 ∧
      (recentTracksHandler net apiKey user now query c).limits = [(parseLimit query).1]) ∧
    (∀ l ∈ (recentTracksHandler net apiKey user now query c).limits, l ≤ 50) ∧
    (Values.Get query "limit" = "" → parseLimit query = (10, none)) ∧
    (Values.Get query "limit" ≠ "" → parseLimit query = Atoi (Values.Get query "limit")) ∧
    (∀ ds : List Char, ds ≠ [] → allDigits ds →
      ((Values.Get query "limit").toList = ds ∨ (Values.Get query "limit").toList = '+' :: ds) →
      parseLimit query =
        if decimalValue ds < 9223372036854775808 then (((decimalValue ds : Nat) : Int), none)
        else (9223372036854775807, some .ErrRange)) ∧
    (∀ ds : List Char, ds ≠ [] → allDigits ds →
      (Values.Get query "limit").toList = '-' :: ds →
      parseLimit query =
        if decimalValue ds ≤ 9223372036854775808 then (-((decimalValue ds : Nat) : Int), none)
        else (-9223372036854775808, some .ErrRange)) := by
  have hne : ∀ l : List Char, l ≠ [] → (Values.Get query "limit").toList = l →
      parseLimit query = ParseInt (Values.Get query "limit") := by
    intro l hl hs
    have : Values.Get query "limit" ≠ "" := by
      intro h0
      rw [h0] at hs
      exact hl hs.symm
    simp [parseLimit, this, Atoi]
  refine ⟨handler_rejects net apiKey user now query c,
    handler_forwards net apiKey user now query c, ?_, ?_, ?_, ?_, ?_⟩
  · intro l hl
    by_cases hb : (parseLimit query).2 ≠ none ∨ (parseLimit query).1 > 50
    · rw [(handler_rejects net apiKey user now query c hb).2.1] at hl
      simp at hl
    · have hb1 : (parseLimit query).2 = none := by
        by_contra hx
        exact hb (Or.inl hx)
      have hb2 : (parseLimit query).1 ≤ 50 := by
        by_contra hx
        exact hb (Or.inr (by omega))
      rw [(handler_forwards net apiKey user now query c ⟨hb1, hb2⟩).2] at hl
      simp only [List.mem_singleton] at hl
      rw [hl]
      exact hb2
  · intro h
    simp [parseLimit, h]
  · intro h
    simp [parseLimit, h]
  · intro ds hd hall hs
    have hp : parseLimit query = ParseInt (Values.Get query "limit") := by
      rcases hs with hs | hs
      · exact hne ds hd hs
      · exact hne _ (by simp) hs
    rw [hp, ParseInt_digits _ ds hd hall hs]
    rfl
  · intro ds hd hall hs
    rw [hne _ (by simp) hs, ParseInt_minus_digits _ ds hd hall hs]
    rfl

/-- C10, on the queries `limit=-5`, which is forwarded, and `limit=51`, which is not. -/
theorem limit_validation_witness :
    (recentTracksHandler sampleNet "key" "user" sampleNow (limitQuery "-5") Cache.initial).limits
      = [(parseLimit (limitQuery "-5")).1] ∧
    (parseLimit (limitQuery "-5")).1 = -5 ∧
    (recentTracksHandler sampleNet "key" "user" sampleNow (limitQuery "51") Cache.initial).status
      = 400 :=
  ⟨((limit_validation sampleNet "key" "user" sampleNow (limitQuery "-5") Cache.initial).2.1
      (by decide)).2,
   by decide,
   ((limit_validation sampleNet "key" "user" sampleNow (limitQuery "51") Cache.initial).1
      (by decide)).1⟩

/-! ## The cache under concurrency -/

theorem countP_set_eq {α : Type} (p : α → Bool) (l : List α) (i : Nat) (a b : α)
    (h : l[i]? = some a) :
    (l.set i b).countP p + (if p a then 1 else 0) = l.countP p + (if p b then 1 else 0) := by
  induction l generalizing i with
  | nil => simp at h
  | cons x xs ih =>
    cases i with
    | zero =>
      simp only [List.getElem?_cons_zero, Option.some.injEq] at h
      subst h
      simp only [List.set_cons_zero, List.countP_cons]
      omega
    | succ j =>
      simp only [List.getElem?_cons_succ] at h
      have := ih j h
      simp only [List.set_cons_succ, List.countP_cons]
      omega

theorem countP_pos_of_getElem? {α : Type} (p : α → Bool) (l : List α) (i : Nat) (a : α)
    (h : l[i]? = some a) (hp : p a = true) : 1 ≤ l.countP p :=
  List.countP_pos_iff.2 ⟨a, List.getElem?_mem h, hp⟩

theorem countP_two_of_getElem? {α : Type} (p : α → Bool) (l : List α) (i j : Nat) (a b : α)
    (hij : i ≠ j) (hi : l[i]? = some a) (hj : l[j]? = some b) (ha : p a = true)
    (hb : p b = true) : 2 ≤ l.countP p := by
  induction l generalizing i j with
  | nil => simp at hi
  | cons x xs ih =>
    cases i with
    | zero =>
      cases j with
      | zero => exact absurd rfl hij
      | succ k =>
        simp only [List.getElem?_cons_zero, Option.some.injEq] at hi
        simp only [List.getElem?_cons_succ] at hj
        subst hi
        have := countP_pos_of_getElem? p xs k b hj hb
        simp only [List.countP_cons, ha, if_true]
        omega
    | succ m =>
      cases j with
      | zero =>
        simp only [List.getElem?_cons_zero, Option.some.injEq] at hj
        simp only [List.getElem?_cons_succ] at hi
        subst hj
        have := countP_pos_of_getElem? p xs m a hi ha
        simp only [List.countP_cons, hb, if_true]
        omega
      | succ k =>
        simp only [List.getElem?_cons_succ] at hi hj
        have := ih m k (by omega) hi hj
        rw [List.countP_cons]
        omega

theorem PC.ok_mono (pc : PC) (ct : FriendlyRecentTracks) (lt : Time)
    (rs rs1 : List (FriendlyRecentTracks × Time)) (hsub : ∀ x ∈ rs, x ∈ rs1)
    (h : pc.ok ct lt rs) : pc.ok ct lt rs1 := by
  cases pc with
  | returned tracks err seen =>
    cases seen with
    | none => trivial
    | some x => exact ⟨hsub _ h.1, h.2⟩
  | w0 now tracks => exact hsub _ h
  | w1 now tracks => exact ⟨hsub _ h.1, h.2⟩
  | w2 now tracks => exact ⟨hsub _ h.1, h.2⟩
  | w3 now tracks => exact ⟨hsub _ h.1, h.2⟩
  | w4 now tracks => exact ⟨hsub _ h.1, h.2⟩
  | _ => exact h

theorem PC.ok_of_unlocked (pc : PC) (hr : pc.readLocked = false) (hw : pc.writeLocked = false)
    (ct ct1 : FriendlyRecentTracks) (lt lt1 : Time)
    (rs rs1 : List (FriendlyRecentTracks × Time)) (hsub : ∀ x ∈ rs, x ∈ rs1)
    (h : pc.ok ct lt rs) : pc.ok ct1 lt1 rs1 := by
  cases pc with
  | returned tracks err seen =>
    cases seen with
    | none => trivial
    | some x => exact ⟨hsub _ h.1, h.2⟩
  | start => trivial
  | fetching now => trivial
  | fetched now tracks => trivial
  | rlocked => cases hr
  | hit0 _ => cases hr
  | hit1 _ _ => cases hr
  | hit2 _ _ _ => cases hr
  | hit3 _ _ => cases hr
  | miss _ => cases hr
  | w0 _ _ => cases hw
  | w1 _ _ => cases hw
  | w2 _ _ => cases hw
  | w3 _ _ => cases hw
  | w4 _ _ => cases hw

theorem Inv.reader_facts {s : State} (hInv : Inv s) (tid : Nat) (t : Thread)
    (ht : s.threads[tid]? = some t) (hp : t.pc.readLocked = true) :
    1 ≤ s.readers ∧ s.writer = false := by
  have h1 := countP_pos_of_getElem? (fun t : Thread => t.pc.readLocked) s.threads tid t ht hp
  rw [← hInv.readers_eq] at h1
  refine ⟨h1, ?_⟩
  cases hw : s.writer with
  | false => rfl
  | true =>
    have := hInv.excl hw
    omega

theorem Inv.writer_facts {s : State} (hInv : Inv s) (tid : Nat) (t : Thread)
    (ht : s.threads[tid]? = some t) (hp : t.pc.writeLocked = true) :
    s.writer = true ∧ s.readers = 0 ∧
    ∀ (i : Nat) (u : Thread), i ≠ tid → s.threads[i]? = some u →
      u.pc.readLocked = false ∧ u.pc.writeLocked = false := by
  have h1 := countP_pos_of_getElem? (fun t : Thread => t.pc.writeLocked) s.threads tid t ht hp
  rw [← hInv.writer_eq] at h1
  have hw : s.writer = true := by
    cases hw : s.writer with
    | false => rw [hw] at h1; simp at h1
    | true => rfl
  have hr := hInv.excl hw
  refine ⟨hw, hr, ?_⟩
  intro i u hi hu
  constructor
  · cases hur : u.pc.readLocked with
    | false => rfl
    | true =>
      have := countP_pos_of_getElem? (fun t : Thread => t.pc.readLocked) s.threads i u hu hur
      rw [← hInv.readers_eq] at this
      omega
  · cases huw : u.pc.writeLocked with
    | false => rfl
    | true =>
      have := countP_two_of_getElem? (fun t : Thread => t.pc.writeLocked) s.threads i tid u t
        hi hu ht huw hp
      rw [← hInv.writer_eq, hw] at this
      simp at this

theorem Inv.frame (s s1 : State) (tid : Nat) (t : Thread) (pc1 : PC) (hInv : Inv s)
    (ht : s.threads[tid]? = some t)
    (hr : s1.readers + (if t.pc.readLocked then 1 else 0)
        = s.readers + (if pc1.readLocked then 1 else 0))
    (hw : (if s1.writer then 1 else 0) + (if t.pc.writeLocked then 1 else 0)
        = (if s.writer then 1 else 0) + (if pc1.writeLocked then 1 else 0))
    (hexcl : s1.writer = true → s1.readers = 0)
    (hstable : s1.writer = false → (s1.cachedTracks, s1.lastCacheTime) ∈ s1.refreshes)
    (hself : pc1.ok s1.cachedTracks s1.lastCacheTime s1.refreshes)
    (hothers : ∀ (i : Nat) (u : Thread), i ≠ tid → s.threads[i]? = some u →
      u.pc.ok s1.cachedTracks s1.lastCacheTime s1.refreshes) :
    Inv { s1 with threads := s.threads.set tid { t with pc := pc1 } } := by
  constructor
  · have h := countP_set_eq (fun t : Thread => t.pc.readLocked) s.threads tid t
      { t with pc := pc1 } ht
    have h0 := hInv.readers_eq
    simp only at h ⊢
    omega
  · have h := countP_set_eq (fun t : Thread => t.pc.writeLocked) s.threads tid t
      { t with pc := pc1 } ht
    have h0 := hInv.writer_eq
    simp only at h ⊢
    omega
  · exact hexcl
  · exact hstable
  · intro i u hu
    simp only at hu ⊢
    rw [List.getElem?_set] at hu
    by_cases hi : tid = i
    · rw [if_pos hi] at hu
      split at hu
      · simp only [Option.some.injEq] at hu
        subst hu
        exact hself
      · cases hu
    · rw [if_neg hi] at hu
      exact hothers i u (Ne.symm hi) hu

theorem stepThread_preserves (s s1 : State) (tid : Nat) (t : Thread) (now : Time)
    (net : Transport) (pc1 : PC) (hInv : Inv s) (ht : s.threads[tid]? = some t)
    (hst : stepThread s t now net = some (s1, pc1)) :
    Inv { s1 with threads := s.threads.set tid { t with pc := pc1 } } := by
  have hok := hInv.threads_ok tid t ht
  have hkeep : ∀ (i : Nat) (u : Thread), i ≠ tid → s.threads[i]? = some u →
      u.pc.ok s.cachedTracks s.lastCacheTime s.refreshes :=
    fun i u _ hu => hInv.threads_ok i u hu
  unfold stepThread at hst
  cases hpc : t.pc with
  | start =>
    simp only [hpc] at hst
    split at hst
    · cases hst
    · rename_i hw
      simp only [Option.some.injEq, Prod.mk.injEq] at hst
      obtain ⟨rfl, rfl⟩ := hst
      refine Inv.frame s _ tid t _ hInv ht ?_ ?_ ?_ ?_ ?_ ?_
      · simp [hpc, PC.readLocked]
      · simp [hpc, PC.writeLocked]
      · intro h
        exact absurd h hw
      · exact hInv.stable
      · trivial
      · exact hkeep
  | rlocked =>
    simp only [hpc] at hst
    split at hst
    · simp only [Option.some.injEq, Prod.mk.injEq] at hst
      obtain ⟨rfl, rfl⟩ := hst
      refine Inv.frame s _ tid t _ hInv ht ?_ ?_ hInv.excl hInv.stable ?_ hkeep
      · simp [hpc, PC.readLocked]
      · simp [hpc, PC.writeLocked]
      · rfl
    · simp only [Option.some.injEq, Prod.mk.injEq] at hst
      obtain ⟨rfl, rfl⟩ := hst
      refine Inv.frame s _ tid t _ hInv ht ?_ ?_ hInv.excl hInv.stable ?_ hkeep
      · simp [hpc, PC.readLocked]
      · simp [hpc, PC.writeLocked]
      · trivial
  | hit0 seen =>
    simp only [hpc, Option.some.injEq, Prod.mk.injEq] at hst
    obtain ⟨rfl, rfl⟩ := hst
    rw [hpc] at hok
    refine Inv.frame s _ tid t _ hInv ht ?_ ?_ hInv.excl hInv.stable ?_ hkeep
    · simp [hpc, PC.readLocked]
    · simp [hpc, PC.writeLocked]
    · exact ⟨hok, rfl⟩
  | hit1 seen tr =>
    simp only [hpc, Option.some.injEq, Prod.mk.injEq] at hst
    obtain ⟨rfl, rfl⟩ := hst
    rw [hpc] at hok
    refine Inv.frame s _ tid t _ hInv ht ?_ ?_ hInv.excl hInv.stable ?_ hkeep
    · simp [hpc, PC.readLocked]
    · simp [hpc, PC.writeLocked]
    · exact ⟨hok.1, hok.2, rfl⟩
  | hit2 seen tr total =>
    simp only [hpc, Option.some.injEq, Prod.mk.injEq] at hst
    obtain ⟨rfl, rfl⟩ := hst
    rw [hpc] at hok
    refine Inv.frame s _ tid t _ hInv ht ?_ ?_ hInv.excl hInv.stable ?_ hkeep
    · simp [hpc, PC.readLocked]
    · simp [hpc, PC.writeLocked]
    · obtain ⟨h1, h2, h3⟩ := hok
      subst h2 h3
      exact ⟨h1, rfl⟩
  | hit3 seen copy =>
    simp only [hpc, Option.some.injEq, Prod.mk.injEq] at hst
    obtain ⟨rfl, rfl⟩ := hst
    rw [hpc] at hok
    have hf := hInv.reader_facts tid t ht (by simp [hpc, PC.readLocked])
    refine Inv.frame s _ tid t _ hInv ht ?_ ?_ ?_ hInv.stable ?_ hkeep
    · simp only [hpc, PC.readLocked, if_true]
      simp
      omega
    · simp [hpc, PC.writeLocked]
    · intro h
      simp only at h
      rw [hf.2] at h
      cases h
    · obtain ⟨h1, h2⟩ := hok
      subst h1 h2
      exact ⟨hInv.stable hf.2, rfl, rfl⟩
  | miss now0 =>
    simp only [hpc, Option.some.injEq, Prod.mk.injEq] at hst
    obtain ⟨rfl, rfl⟩ := hst
    have hf := hInv.reader_facts tid t ht (by simp [hpc, PC.readLocked])
    refine Inv.frame s _ tid t _ hInv ht ?_ ?_ ?_ hInv.stable ?_ hkeep
    · simp only [hpc, PC.readLocked, if_true]
      simp
      omega
    · simp [hpc, PC.writeLocked]
    · intro h
      simp only at h
      rw [hf.2] at h
      cases h
    · trivial
  | fetching now0 =>
    simp only [hpc] at hst
    split at hst
    · simp only [Option.some.injEq, Prod.mk.injEq] at hst
      obtain ⟨rfl, rfl⟩ := hst
      refine Inv.frame s _ tid t _ hInv ht ?_ ?_ hInv.excl hInv.stable ?_ hkeep
      · simp [hpc, PC.readLocked]
      · simp [hpc, PC.writeLocked]
      · trivial
    · simp only [Option.some.injEq, Prod.mk.injEq] at hst
      obtain ⟨rfl, rfl⟩ := hst
      refine Inv.frame s _ tid t _ hInv ht ?_ ?_ hInv.excl hInv.stable ?_ hkeep
      · simp [hpc, PC.readLocked]
      · simp [hpc, PC.writeLocked]
      · trivial
  | fetched now0 tracks =>
    simp only [hpc] at hst
    split at hst
    · cases hst
    · rename_i hg
      simp only [Option.some.injEq, Prod.mk.injEq] at hst
      obtain ⟨rfl, rfl⟩ := hst
      have hw : s.writer = false := by
        cases h : s.writer with
        | false => rfl
        | true => exact absurd (Or.inl h) hg
      have hr : s.readers = 0 := by
        by_contra h
        exact hg (Or.inr h)
      refine Inv.frame s _ tid t _ hInv ht ?_ ?_ ?_ ?_ ?_ ?_
      · simp [hpc, PC.readLocked]
      · simp [hpc, PC.writeLocked, hw]
      · intro _
        exact hr
      · intro h
        cases h
      · show (tracks, now0) ∈ s.refreshes ++ [(tracks, now0)]
        simp
      · intro i u hi hu
        exact PC.ok_mono _ _ _ s.refreshes _ (fun x hx => List.mem_append_left _ hx)
          (hkeep i u hi hu)
  | w0 now0 tracks =>
    simp only [hpc, Option.some.injEq, Prod.mk.injEq] at hst
    obtain ⟨rfl, rfl⟩ := hst
    rw [hpc] at hok
    have hf := hInv.writer_facts tid t ht (by simp [hpc, PC.writeLocked])
    refine Inv.frame s _ tid t _ hInv ht ?_ ?_ ?_ ?_ ?_ ?_
    · simp [hpc, PC.readLocked]
    · simp [hpc, PC.writeLocked]
    · intro _
      exact hf.2.1
    · intro h
      simp only at h
      rw [hf.1] at h
      cases h
    · exact ⟨hok, rfl⟩
    · intro i u hi hu
      exact PC.ok_of_unlocked _ (hf.2.2 i u hi hu).1 (hf.2.2 i u hi hu).2 _ _ _ _ _ _
        (fun x hx => hx) (hkeep i u hi hu)
  | w1 now0 tracks =>
    simp only [hpc, Option.some.injEq, Prod.mk.injEq] at hst
    obtain ⟨rfl, rfl⟩ := hst
    rw [hpc] at hok
    have hf := hInv.writer_facts tid t ht (by simp [hpc, PC.writeLocked])
    refine Inv.frame s _ tid t _ hInv ht ?_ ?_ ?_ ?_ ?_ ?_
    · simp [hpc, PC.readLocked]
    · simp [hpc, PC.writeLocked]
    · intro _
      exact hf.2.1
    · intro h
      simp only at h
      rw [hf.1] at h
      cases h
    · exact ⟨hok.1, hok.2, rfl⟩
    · intro i u hi hu
      exact PC.ok_of_unlocked _ (hf.2.2 i u hi hu).1 (hf.2.2 i u hi hu).2 _ _ _ _ _ _
        (fun x hx => hx) (hkeep i u hi hu)
  | w2 now0 tracks =>
    simp only [hpc, Option.some.injEq, Prod.mk.injEq] at hst
    obtain ⟨rfl, rfl⟩ := hst
    rw [hpc] at hok
    have hf := hInv.writer_facts tid t ht (by simp [hpc, PC.writeLocked])
    refine Inv.frame s _ tid t _ hInv ht ?_ ?_ ?_ ?_ ?_ ?_
    · simp [hpc, PC.readLocked]
    · simp [hpc, PC.writeLocked]
    · intro _
      exact hf.2.1
    · intro h
      simp only at h
      rw [hf.1] at h
      cases h
    · refine ⟨hok.1, ?_⟩
      obtain ⟨_, h2, h3⟩ := hok
      cases tracks
      simp only at h2 h3 ⊢
      rw [h2, h3]
    · intro i u hi hu
      exact PC.ok_of_unlocked _ (hf.2.2 i u hi hu).1 (hf.2.2 i u hi hu).2 _ _ _ _ _ _
        (fun x hx => hx) (hkeep i u hi hu)
  | w3 now0 tracks =>
    simp only [hpc, Option.some.injEq, Prod.mk.injEq] at hst
    obtain ⟨rfl, rfl⟩ := hst
    rw [hpc] at hok
    have hf := hInv.writer_facts tid t ht (by simp [hpc, PC.writeLocked])
    refine Inv.frame s _ tid t _ hInv ht ?_ ?_ ?_ ?_ ?_ ?_
    · simp [hpc, PC.readLocked]
    · simp [hpc, PC.writeLocked]
    · intro _
      exact hf.2.1
    · intro h
      simp only at h
      rw [hf.1] at h
      cases h
    · exact ⟨hok.1, hok.2, rfl⟩
    · intro i u hi hu
      exact PC.ok_of_unlocked _ (hf.2.2 i u hi hu).1 (hf.2.2 i u hi hu).2 _ _ _ _ _ _
        (fun x hx => hx) (hkeep i u hi hu)
  | w4 now0 tracks =>
    simp only [hpc, Option.some.injEq, Prod.mk.injEq] at hst
    obtain ⟨rfl, rfl⟩ := hst
    rw [hpc] at hok
    have hf := hInv.writer_facts tid t ht (by simp [hpc, PC.writeLocked])
    refine Inv.frame s _ tid t _ hInv ht ?_ ?_ ?_ ?_ ?_ hkeep
    · simp [hpc, PC.readLocked]
    · simp [hpc, PC.writeLocked, hf.1]
    · intro h
      cases h
    · intro _
      obtain ⟨h1, h2, h3⟩ := hok
      show (s.cachedTracks, s.lastCacheTime) ∈ s.refreshes
      rw [h2, h3]
      exact h1
    · trivial
  | returned tracks err seen =>
    simp only [hpc] at hst
    cases hst

theorem Inv.initial : Inv State.initial := by
  constructor
  · rfl
  · rfl
  · intro h
    cases h
  · intro _
    simp [State.initial]
  · intro i t h
    simp [State.initial] at h

theorem step_preserves (s s1 : State) (a : Action) (hInv : Inv s) (h : step s a = some s1) :
    Inv s1 := by
  cases a with
  | spawn apiKey user limit =>
    simp only [step, Option.some.injEq] at h
    subst h
    constructor
    · have := hInv.readers_eq
      simp [List.countP_append, List.countP_cons, PC.readLocked, this]
    · have := hInv.writer_eq
      simp only [List.countP_append, List.countP_cons, List.countP_nil, PC.writeLocked]
      simpa using this
    · exact hInv.excl
    · exact hInv.stable
    · intro i t ht
      simp only at ht ⊢
      rw [List.getElem?_append] at ht
      split at ht
      · exact hInv.threads_ok i t ht
      · have hm := List.getElem?_mem ht
        simp only [List.mem_singleton] at hm
        subst hm
        trivial
  | run tid now net =>
    simp only [step] at h
    cases ht : s.threads[tid]? with
    | none => simp [ht] at h
    | some t =>
      simp only [ht] at h
      cases hst : stepThread s t now net with
      | none => simp [hst] at h
      | some r =>
        obtain ⟨s2, pc1⟩ := r
        simp only [hst, Option.some.injEq] at h
        subst h
        exact stepThread_preserves s s2 tid t now net pc1 hInv ht hst

theorem runActions_preserves (acts : List Action) (s s1 : State) (hInv : Inv s)
    (h : runActions s acts = some s1) : Inv s1 := by
  induction acts generalizing s with
  | nil =>
    simp only [runActions, Option.some.injEq] at h
    subst h
    exact hInv
  | cons a rest ih =>
    simp only [runActions] at h
    cases hs : step s a with
    | none => simp [hs] at h
    | some s2 =>
      simp only [hs] at h
      exact ih s2 (step_preserves s s2 a hInv hs) h

theorem Inv.consistent {s : State} (hInv : Inv s) (tid : Nat) (t : Thread)
    (ht : s.threads[tid]? = some t) : t.pc.consistent s.refreshes := by
  have hok := hInv.threads_ok tid t ht
  cases hpc : t.pc with
  | hit3 seen copy =>
    rw [hpc] at hok
    have hf := hInv.reader_facts tid t ht (by simp [hpc, PC.readLocked])
    obtain ⟨h1, h2⟩ := hok
    subst h1 h2
    exact hInv.stable hf.2
  | returned tracks err seen =>
    rw [hpc] at hok
    cases seen with
    | none => trivial
    | some x => exact hok
  | _ => trivial

theorem step_run (s s1 : State) (tid : Nat) (t : Thread) (now : Time) (net : Transport)
    (pc1 : PC) (ht : s.threads[tid]? = some t)
    (hst : stepThread s t now net = some (s1, pc1)) :
    step s (.run tid now net)
      = some { s1 with threads := s.threads.set tid { t with pc := pc1 } } := by
  simp only [step, ht, hst]

theorem getElem?_set_self_of_some {α : Type} (l : List α) (i : Nat) (a b : α)
    (h : l[i]? = some a) : (l.set i b)[i]? = some b := by
  have hil : i < l.length := by
    rcases Nat.lt_or_ge i l.length with h1 | h1
    · exact h1
    · rw [List.getElem?_eq_none h1] at h
      cases h
  rw [List.getElem?_set, if_pos rfl, if_pos hil]

/-- The concurrent model agrees with `getCachedRecentTracks`: a thread that runs its
call alone, from a state in which the mutex is free, ends in at most ten steps
with the results of `getCachedRecentTracks` on the package variables, which end
up as that function leaves them. -/
theorem solo_run (s : State) (tid : Nat) (t : Thread) (now : Time) (net : Transport)
    (ht : s.threads[tid]? = some t) (hpc : t.pc = .start) (hw : s.writer = false)
    (hr : s.readers = 0) :
    ∃ (n : Nat) (s1 : State),
      runActions s (List.replicate n (.run tid now net)) = some s1 ∧
      (∃ seen : Option (FriendlyRecentTracks × Time), s1.threads = s.threads.set tid
        { t with
          pc := PC.returned
            (getCachedRecentTracks net now t.apiKey t.user t.limit
              { cachedTracks := s.cachedTracks, lastCacheTime := s.lastCacheTime }).tracks
            (getCachedRecentTracks net now t.apiKey t.user t.limit
              { cachedTracks := s.cachedTracks, lastCacheTime := s.lastCacheTime }).err seen }) ∧
      ({ cachedTracks := s1.cachedTracks, lastCacheTime := s1.lastCacheTime } : Cache)
        = (getCachedRecentTracks net now t.apiKey t.user t.limit
            { cachedTracks := s.cachedTracks, lastCacheTime := s.lastCacheTime }).cache ∧
      s1.writer = false ∧ s1.readers = 0 := by
  obtain ⟨apiKey, user, limit, pc⟩ := t
  simp only at hpc
  subst hpc
  have hset : ∀ (l : List Thread) (a b : Thread), (l.set tid a).set tid b = l.set tid b :=
    fun l a b => List.set_set a b l tid
  have hget : ∀ b : Thread, (s.threads.set tid b)[tid]? = some b :=
    fun b => getElem?_set_self_of_some _ _ _ b ht
  by_cases hfresh : now.Sub s.lastCacheTime < cacheDuration
  · refine ⟨6, ?_⟩
    simp only [List.replicate, runActions, step, ht, stepThread, hw, hget, hset, hfresh,
      if_true, Bool.false_eq_true, if_false]
    refine ⟨_, rfl, ⟨some (s.cachedTracks, s.lastCacheTime), ?_⟩, ?_, ?_, ?_⟩
    · simp only [getCachedRecentTracks, hfresh, if_true]
    · simp [getCachedRecentTracks, hfresh]
    · simp [hw]
    · simp [hr]
  · cases he : (GetRecentTracksWithFriendlyFormat net apiKey user limit).err with
    | some e =>
      refine ⟨4, ?_⟩
      simp only [List.replicate, runActions, step, ht, stepThread, hw, hget, hset, hfresh,
        if_true, Bool.false_eq_true, if_false, he]
      refine ⟨_, rfl, ⟨none, ?_⟩, ?_, ?_, ?_⟩
      · simp only [getCachedRecentTracks, hfresh, if_false, he]
      · simp [getCachedRecentTracks, hfresh, he]
      · simp [hw]
      · simp [hr]
    | none =>
      refine ⟨10, ?_⟩
      simp only [List.replicate, runActions, step, ht, stepThread, hw, hget, hset, hfresh,
        if_true, Bool.false_eq_true, if_false, he, hr, Nat.zero_add, Nat.sub_self, ne_eq,
        not_true_eq_false, or_self]
      refine ⟨_, rfl, ⟨none, ?_⟩, ?_, ?_, ?_⟩
      · simp only [getCachedRecentTracks, hfresh, if_false, he]
      · simp [getCachedRecentTracks, hfresh, he]
      · simp [hw]
      · simp [hr]

/-- C9: in every state that the system reaches from program start by any interleaving
of the operations of any number of concurrent calls of `getCachedRecentTracks`,
whenever no write is under way the package variables `cachedTracks` and
`lastCacheTime` are the pair stored by one refresh (or the initial pair), and
for every call on the cached path, the `lastCacheTime` its freshness test used
and the `cachedTracks` it copied field by field are the pair of one and the same
refresh, and what it returns is that value with `Cached = true`. -/
theorem no_torn_snapshot (acts : List Action) (s : State)
    (h : runActions State.initial acts = some s) :
    (s.writer = false → (s.cachedTracks, s.lastCacheTime) ∈ s.refreshes) ∧
    (∀ (tid : Nat) (t : Thread), s.threads[tid]? = some t → t.pc.consistent s.refreshes) :=
  have hInv : Inv s := runActions_preserves acts State.initial s Inv.initial h
  ⟨hInv.stable, fun tid t ht => hInv.consistent tid t ht⟩


/-- C9, on an interleaving of three calls in which a reader runs between two
overlapping refreshes. -/
theorem no_torn_snapshot_witness :
    runActions State.initial sampleActions = some sampleFinal ∧
    PC.consistent sampleFinal.refreshes
      (.returned { sampleTracks with Cached := true } none (some (sampleTracks, sampleNow))) :=
  ⟨by decide,
   (no_torn_snapshot sampleActions sampleFinal (by decide)).2 2
     { apiKey := "key", user := "user", limit := 50
       pc := .returned { sampleTracks with Cached := true } none
               (some (sampleTracks, sampleNow)) }
     (by decide)⟩

end Midka
